import Mathlib

/-!
Verification of the Particles repository's layout/clustering core.

The graph model, cluster detector, centrality scorer, the two layout
engines (radial shuffle in `shuffle-particles.js`, grid sort in
`src/public/sort-particles.js`) and the shared frame-stepped animator are
shallowly embedded below.  JavaScript `Map`s / plain objects of particles
become association lists `List (String × Particle)` (JS insertion order =
list order); float arithmetic is modelled exactly over `ℝ`
(`Math.sqrt`/`Math.cos`/`Math.sin` become `Real.sqrt`/`Real.cos`/
`Real.sin`); `Math.random()` calls are modelled as explicit jitter-stream
parameters.  The recursive DFS of `detectClusters` is embedded with a fuel
argument; fuel `particles.length + 1` strictly exceeds the depth every
chain of recursive calls can reach (each nested call marks a fresh node),
so the embedding computes exactly what the unbounded JS recursion does.
-/

namespace Particles

/-- One entry of a node's merged `edges` array: `{key, label}`. -/
structure EdgeRef where
  key : String
  label : String
  deriving DecidableEq

/-- A particle (node) as the layout engines see it: live position, visual
radius, display fields, and the merged adjacency list `edges`. -/
structure Particle where
  x : ℝ
  y : ℝ
  radius : ℝ
  title : String
  color : String
  data : String
  edges : List EdgeRef

/-- An edge record of the external graph format:
`{source, target, directed, label}`. -/
structure GEdge where
  source : String
  target : String
  directed : Bool
  label : String
  deriving DecidableEq

/-- External graph snapshot `{nodes: {...}, edges: {...}}`. -/
structure GraphData where
  nodes : List (String × Particle)
  edges : List (String × GEdge)

/-- Canvas dimensions. -/
structure Canvas where
  width : ℝ
  height : ℝ

/-- `particles.has(k)` on the association-list model of a JS `Map`. -/
def hasKey (P : List (String × Particle)) (k : String) : Bool :=
  (List.lookup k P).isSome

/-- The `edges` array of the particle stored under `k` (`[]` when the key
is absent, matching the `particle && particle.edges` guard). -/
def edgesOf (P : List (String × Particle)) (k : String) : List EdgeRef :=
  match List.lookup k P with
  | some p => p.edges
  | none => []

/-- The recursive helper `dfs(nodeKey, currentCluster)` of
`detectClusters`.  State is `(visited, currentCluster)`; marking pushes
onto `visited` and appends to the cluster, exactly as the JS
`visited.add` / `currentCluster.push` pair.  The fuel argument only bounds
the recursion depth; see the header note. -/
def dfs (P : List (String × Particle)) :
    Nat → String → List String × List String → List String × List String
  | 0, _, st => st
  | fuel + 1, k, st =>
    if k ∈ st.1 then st
    else
      let st1 : List String × List String := (k :: st.1, st.2 ++ [k])
      (edgesOf P k).foldl
        (fun st2 e =>
          if hasKey P e.key = true ∧ e.key ∉ st2.1 then dfs P fuel e.key st2
          else st2)
        st1

/-- `detectClusters(particles)`: DFS from every unvisited key, collecting
each traversal's freshly visited nodes as one cluster. -/
def detectClusters (P : List (String × Particle)) : List (List String) :=
  (P.foldl
    (fun acc kv =>
      if kv.1 ∈ acc.1 then acc
      else
        let st := dfs P (P.length + 1) kv.1 (acc.1, [])
        (st.1, if st.2.length > 0 then acc.2 ++ [st.2] else acc.2))
    ([], [])).2

/-- `a`'s merged adjacency mentions `b`. -/
def Adj (P : List (String × Particle)) (a b : String) : Prop :=
  ∃ e ∈ edgesOf P a, e.key = b

/-- `st'` extends `st` by the freshly visited nodes `δ` (most recent
first): the visited set grew by exactly `δ` and the current cluster
recorded the same nodes in visit order. -/
def Ext (st st' : List String × List String) (δ : List String) : Prop :=
  st'.1 = δ ++ st.1 ∧ st'.2 = st.2 ++ δ.reverse ∧ (∀ x ∈ δ, x ∉ st.1) ∧ δ.Nodup

theorem ext_refl (st : List String × List String) : Ext st st [] := by
  refine ⟨rfl, by simp, by simp, List.nodup_nil⟩

theorem ext_trans {st st' st'' : List String × List String} {d1 d2 : List String}
    (h1 : Ext st st' d1) (h2 : Ext st' st'' d2) : Ext st st'' (d2 ++ d1) := by
  obtain ⟨v1, c1, f1, n1⟩ := h1
  obtain ⟨v2, c2, f2, n2⟩ := h2
  refine ⟨by rw [v2, v1, List.append_assoc], by rw [c2, c1, List.reverse_append, List.append_assoc],
    ?_, ?_⟩
  · intro x hx
    rcases List.mem_append.1 hx with hx2 | hx1
    · have := f2 x hx2
      rw [v1] at this
      exact fun h => this (List.mem_append.2 (Or.inr h))
    · exact f1 x hx1
  · refine List.Nodup.append n2 n1 ?_
    intro x hx2 hx1
    have := f2 x hx2
    rw [v1] at this
    exact this (List.mem_append.2 (Or.inl hx1))

theorem ext_visited_mono {st st' : List String × List String} {δ : List String}
    (h : Ext st st' δ) : st.1 ⊆ st'.1 := by
  rw [h.1]; exact fun x hx => List.mem_append.2 (Or.inr hx)

theorem lookup_cons_self {β : Type} (a : String) (b : β) (l : List (String × β)) :
    List.lookup a ((a, b) :: l) = some b := by
  simp [List.lookup_cons]

theorem lookup_cons_ne {β : Type} {k a : String} (b : β) (l : List (String × β))
    (h : k ≠ a) : List.lookup k ((a, b) :: l) = List.lookup k l := by
  have hb : (k == a) = false := by simpa using h
  simp [List.lookup_cons, hb]

theorem lookup_mem {β : Type} {k : String} {v : β} {l : List (String × β)}
    (h : List.lookup k l = some v) : (k, v) ∈ l := by
  induction l with
  | nil => simp [List.lookup] at h
  | cons kv rest ih =>
    obtain ⟨a, b⟩ := kv
    by_cases hk : k = a
    · subst hk
      rw [lookup_cons_self] at h
      simp only [Option.some.injEq] at h
      subst h
      exact List.mem_cons_self _ _
    · rw [lookup_cons_ne b rest hk] at h
      exact List.mem_cons_of_mem _ (ih h)

theorem hasKey_mem {P : List (String × Particle)} {k : String}
    (h : hasKey P k = true) : k ∈ P.map Prod.fst := by
  unfold hasKey at h
  cases hl : List.lookup k P with
  | none => rw [hl] at h; simp at h
  | some p =>
    exact List.mem_map.2 ⟨(k, p), lookup_mem hl, rfl⟩

theorem mem_hasKey {P : List (String × Particle)} {k : String}
    (h : k ∈ P.map Prod.fst) : hasKey P k = true := by
  induction P with
  | nil => simp at h
  | cons kv rest ih =>
    obtain ⟨a, b⟩ := kv
    by_cases hk : k = a
    · subst hk
      simp [hasKey, lookup_cons_self]
    · simp only [List.map_cons, List.mem_cons] at h
      rcases h with h | h
      · exact absurd h hk
      · simpa [hasKey, lookup_cons_ne b rest hk] using ih h

theorem edgesOf_of_not_hasKey {P : List (String × Particle)} {k : String}
    (h : hasKey P k = false) : edgesOf P k = [] := by
  unfold edgesOf
  unfold hasKey at h
  cases hl : List.lookup k P with
  | none => rfl
  | some p => rw [hl] at h; simp at h

/-- Shape of one edge-loop pass of the DFS: it only extends the state by
nodes that are keys of `P`. -/
theorem dfs_fold_ext (P : List (String × Particle)) (fuel : ℕ)
    (IH : ∀ k st, ∃ δ, Ext st (dfs P fuel k st) δ ∧
      ∀ x ∈ δ, x = k ∨ hasKey P x = true) :
    ∀ (es : List EdgeRef) (st : List String × List String),
      ∃ δ, Ext st
        (es.foldl (fun st2 e =>
          if hasKey P e.key = true ∧ e.key ∉ st2.1 then dfs P fuel e.key st2
          else st2) st) δ ∧
        ∀ x ∈ δ, hasKey P x = true := by
  intro es
  induction es with
  | nil => exact fun st => ⟨[], ext_refl st, by simp⟩
  | cons e rest ih =>
    intro st
    simp only [List.foldl_cons]
    by_cases hc : hasKey P e.key = true ∧ e.key ∉ st.1
    · rw [if_pos hc]
      obtain ⟨d1, hext1, helem1⟩ := IH e.key st
      obtain ⟨d2, hext2, helem2⟩ := ih (dfs P fuel e.key st)
      refine ⟨d2 ++ d1, ext_trans hext1 hext2, ?_⟩
      intro x hx
      rcases List.mem_append.1 hx with hx | hx
      · exact helem2 x hx
      · rcases helem1 x hx with rfl | h
        · exact hc.1
        · exact h
    · rw [if_neg hc]
      exact ih st

/-- Shape of a DFS call: the state is extended by fresh, distinct nodes,
each of which is the start node or a key of `P`. -/
theorem dfs_ext (P : List (String × Particle)) :
    ∀ (fuel : ℕ) (k : String) (st : List String × List String),
      ∃ δ, Ext st (dfs P fuel k st) δ ∧
        ∀ x ∈ δ, x = k ∨ hasKey P x = true := by
  intro fuel
  induction fuel with
  | zero => exact fun k st => ⟨[], ext_refl st, by simp⟩
  | succ fuel ih =>
    intro k st
    show ∃ δ, Ext st
      (if k ∈ st.1 then st
       else (edgesOf P k).foldl (fun st2 e =>
          if hasKey P e.key = true ∧ e.key ∉ st2.1 then dfs P fuel e.key st2
          else st2) (k :: st.1, st.2 ++ [k])) δ ∧ _
    by_cases hk : k ∈ st.1
    · rw [if_pos hk]
      exact ⟨[], ext_refl st, by simp⟩
    · rw [if_neg hk]
      have hstep : Ext st (k :: st.1, st.2 ++ [k]) [k] := by
        refine ⟨rfl, by simp, by simpa using hk, List.nodup_singleton k⟩
      obtain ⟨d2, hext2, helem2⟩ := dfs_fold_ext P fuel ih (edgesOf P k) (k :: st.1, st.2 ++ [k])
      refine ⟨d2 ++ [k], ext_trans hstep hext2, ?_⟩
      intro x hx
      rcases List.mem_append.1 hx with hx | hx
      · exact Or.inr (helem2 x hx)
      · simp only [List.mem_singleton] at hx
        exact Or.inl hx

/-- Number of keys of `P` not yet visited; the DFS fuel budget is
measured against it. -/
def unseen (P : List (String × Particle)) (v : List String) : ℕ :=
  ((P.map Prod.fst).filter (fun k => k ∉ v)).length

theorem unseen_anti {P : List (String × Particle)} {v v' : List String}
    (h : v ⊆ v') : unseen P v' ≤ unseen P v := by
  refine List.Sublist.length_le (List.monotone_filter_right _ ?_)
  intro a ha
  simp only [decide_eq_true_eq] at ha ⊢
  exact fun hv => ha (h hv)

theorem unseen_le_length (P : List (String × Particle)) (v : List String) :
    unseen P v ≤ P.length := by
  calc ((P.map Prod.fst).filter (fun k => k ∉ v)).length
      ≤ (P.map Prod.fst).length := List.length_filter_le _ _
    _ = P.length := List.length_map _ _

theorem unseen_lt {P : List (String × Particle)} {v : List String} {k : String}
    (hk : hasKey P k = true) (hv : k ∉ v) : unseen P (k :: v) < unseen P v := by
  have hsub : List.Sublist ((P.map Prod.fst).filter (fun x => x ∉ (k :: v)))
      ((P.map Prod.fst).filter (fun x => x ∉ v)) := by
    refine List.monotone_filter_right _ ?_
    intro a ha
    simp only [decide_eq_true_eq, List.mem_cons, not_or] at ha ⊢
    exact ha.2
  refine lt_of_le_of_ne (List.Sublist.length_le hsub) ?_
  intro hlen
  have heq := List.Sublist.eq_of_length hsub hlen
  have hk1 : k ∈ (P.map Prod.fst).filter (fun x => x ∉ v) := by
    simp only [List.mem_filter, decide_eq_true_eq]
    exact ⟨hasKey_mem hk, hv⟩
  rw [← heq] at hk1
  have h2 := (List.mem_filter.1 hk1).2
  simp at h2

/-- With positive fuel a DFS call always marks its start node. -/
theorem dfs_marks (P : List (String × Particle)) (fuel : ℕ) (k : String)
    (st : List String × List String) : k ∈ (dfs P (fuel + 1) k st).1 := by
  show k ∈ (if k ∈ st.1 then st
    else (edgesOf P k).foldl (fun st2 e =>
      if hasKey P e.key = true ∧ e.key ∉ st2.1 then dfs P fuel e.key st2
      else st2) (k :: st.1, st.2 ++ [k])).1
  by_cases hk : k ∈ st.1
  · rw [if_pos hk]; exact hk
  · rw [if_neg hk]
    obtain ⟨d2, hext2, -⟩ := dfs_fold_ext P fuel (dfs_ext P fuel) (edgesOf P k)
      (k :: st.1, st.2 ++ [k])
    exact ext_visited_mono hext2 (List.mem_cons_self _ _)

/-- Closedness of one edge-loop pass: given enough fuel, every processed
edge whose endpoint is a key ends up visited, and every node the pass
freshly marks has all its in-graph neighbours visited. -/
theorem dfs_fold_closed (P : List (String × Particle)) (fuel : ℕ)
    (IHc : ∀ k st, unseen P st.1 < fuel →
      ∀ x ∈ (dfs P fuel k st).1, x ∉ st.1 →
        ∀ e ∈ edgesOf P x, hasKey P e.key = true → e.key ∈ (dfs P fuel k st).1) :
    ∀ (es : List EdgeRef) (st : List String × List String), unseen P st.1 < fuel →
      (st.1 ⊆ (es.foldl (fun st2 e =>
          if hasKey P e.key = true ∧ e.key ∉ st2.1 then dfs P fuel e.key st2
          else st2) st).1) ∧
      (∀ e ∈ es, hasKey P e.key = true → e.key ∈ (es.foldl (fun st2 e =>
          if hasKey P e.key = true ∧ e.key ∉ st2.1 then dfs P fuel e.key st2
          else st2) st).1) ∧
      (∀ x ∈ (es.foldl (fun st2 e =>
          if hasKey P e.key = true ∧ e.key ∉ st2.1 then dfs P fuel e.key st2
          else st2) st).1, x ∉ st.1 →
        ∀ e2 ∈ edgesOf P x, hasKey P e2.key = true → e2.key ∈ (es.foldl (fun st2 e =>
          if hasKey P e.key = true ∧ e.key ∉ st2.1 then dfs P fuel e.key st2
          else st2) st).1) := by
  intro es
  induction es with
  | nil =>
    intro st hfuel
    refine ⟨fun x hx => hx, by simp, ?_⟩
    intro x hx hnx
    exact absurd hx hnx
  | cons e rest ih =>
    intro st hfuel
    simp only [List.foldl_cons]
    by_cases hc : hasKey P e.key = true ∧ e.key ∉ st.1
    · rw [if_pos hc]
      have hmono : st.1 ⊆ (dfs P fuel e.key st).1 := by
        obtain ⟨d1, hext1, -⟩ := dfs_ext P fuel e.key st
        exact ext_visited_mono hext1
      have hfuel2 : unseen P (dfs P fuel e.key st).1 < fuel :=
        lt_of_le_of_lt (unseen_anti hmono) hfuel
      obtain ⟨ha, hb, hcl⟩ := ih (dfs P fuel e.key st) hfuel2
      have hmark : e.key ∈ (dfs P fuel e.key st).1 := by
        obtain ⟨fuel2, rfl⟩ : ∃ m, fuel = m + 1 :=
          ⟨fuel - 1, (Nat.succ_pred_eq_of_pos (Nat.pos_of_ne_zero (by omega))).symm⟩
        exact dfs_marks P fuel2 e.key st
      refine ⟨fun x hx => ha (hmono hx), ?_, ?_⟩
      · intro e2 he2 hk2
        rcases List.mem_cons.1 he2 with rfl | he2
        · exact ha hmark
        · exact hb e2 he2 hk2
      · intro x hx hnx e2 he2 hk2
        by_cases hx1 : x ∈ (dfs P fuel e.key st).1
        · exact ha (IHc e.key st hfuel x hx1 hnx e2 he2 hk2)
        · exact hcl x hx hx1 e2 he2 hk2
    · rw [if_neg hc]
      obtain ⟨ha, hb, hcl⟩ := ih st hfuel
      refine ⟨ha, ?_, hcl⟩
      intro e2 he2 hk2
      rcases List.mem_cons.1 he2 with rfl | he2
      · rcases not_and_or.1 hc with h1 | h1
        · exact absurd hk2 h1
        · exact ha (not_not.1 h1)
      · exact hb e2 he2 hk2

/-- Closedness of a DFS call: given enough fuel, every node it freshly
marks has all its in-graph neighbours in the resulting visited set. -/
theorem dfs_closed (P : List (String × Particle)) :
    ∀ (fuel : ℕ) (k : String) (st : List String × List String),
      unseen P st.1 < fuel →
      ∀ x ∈ (dfs P fuel k st).1, x ∉ st.1 →
        ∀ e ∈ edgesOf P x, hasKey P e.key = true → e.key ∈ (dfs P fuel k st).1 := by
  intro fuel
  induction fuel with
  | zero => intro k st hfuel; omega
  | succ fuel ih =>
    intro k st hfuel
    have hd : dfs P (fuel + 1) k st = (if k ∈ st.1 then st
        else (edgesOf P k).foldl (fun st2 e =>
          if hasKey P e.key = true ∧ e.key ∉ st2.1 then dfs P fuel e.key st2
          else st2) (k :: st.1, st.2 ++ [k])) := rfl
    rw [hd]
    by_cases hk : k ∈ st.1
    · rw [if_pos hk]
      intro x hx hnx
      exact absurd hx hnx
    · rw [if_neg hk]
      by_cases hkk : hasKey P k = true
      · have hfuel1 : unseen P (k :: st.1, st.2 ++ [k]).1 < fuel :=
          lt_of_lt_of_le (unseen_lt hkk hk) (Nat.lt_succ_iff.1 hfuel)
        obtain ⟨ha, hb, hcl⟩ := dfs_fold_closed P fuel (ih) (edgesOf P k)
          (k :: st.1, st.2 ++ [k]) hfuel1
        intro x hx hnx e2 he2 hk2
        by_cases hxk : x = k
        · subst hxk
          exact hb e2 he2 hk2
        · refine hcl x hx ?_ e2 he2 hk2
          simp only [List.mem_cons, not_or]
          exact ⟨hxk, hnx⟩
      · rw [edgesOf_of_not_hasKey (Bool.not_eq_true _ ▸ hkk : hasKey P k = false)]
        simp only [List.foldl_nil]
        intro x hx hnx e2 he2 hk2
        have hxk : x = k := by
          rcases List.mem_cons.1 hx with h | h
          · exact h
          · exact absurd h hnx
        subst hxk
        rw [edgesOf_of_not_hasKey (Bool.not_eq_true _ ▸ hkk : hasKey P x = false)] at he2
        exact absurd he2 (List.not_mem_nil _)

/-- Invariant of `detectClusters`' outer loop: the visited set is exactly
the nodes of the clusters emitted so far, without duplicates, all of them
keys of `P`; no emitted cluster is empty; the visited set is closed under
in-graph adjacency; and each emitted cluster is closed under mutual
adjacency. -/
structure DetInv (P : List (String × Particle))
    (acc : List String × List (List String)) : Prop where
  vis_eq : acc.1 = acc.2.flatten.reverse
  vis_nd : acc.1.Nodup
  vis_keys : ∀ x ∈ acc.1, x ∈ P.map Prod.fst
  cl_ne : ∀ c ∈ acc.2, c ≠ []
  closed : ∀ x ∈ acc.1, ∀ e ∈ edgesOf P x, hasKey P e.key = true → e.key ∈ acc.1
  sym_cl : ∀ c ∈ acc.2, ∀ x ∈ c, ∀ y, Adj P x y → Adj P y x →
    hasKey P y = true → y ∈ c

/-- The `detectClusters` loop body. -/
def detStep (P : List (String × Particle))
    (acc : List String × List (List String)) (kv : String × Particle) :
    List String × List (List String) :=
  if kv.1 ∈ acc.1 then acc
  else ((dfs P (P.length + 1) kv.1 (acc.1, [])).1,
    if ((dfs P (P.length + 1) kv.1 (acc.1, [])).2).length > 0
    then acc.2 ++ [(dfs P (P.length + 1) kv.1 (acc.1, [])).2] else acc.2)

theorem detectClusters_eq_foldl (P : List (String × Particle)) :
    detectClusters P = (P.foldl (detStep P) ([], [])).2 := rfl

theorem detStep_inv (P : List (String × Particle))
    (acc : List String × List (List String)) (kv : String × Particle)
    (hkv : kv ∈ P) (hinv : DetInv P acc) :
    DetInv P (detStep P acc kv) ∧ kv.1 ∈ (detStep P acc kv).1 ∧
      acc.1 ⊆ (detStep P acc kv).1 := by
  unfold detStep
  by_cases hk : kv.1 ∈ acc.1
  · rw [if_pos hk]
    exact ⟨hinv, hk, fun x hx => hx⟩
  · rw [if_neg hk]
    obtain ⟨δ, ⟨hv, hc, hfresh, hnd⟩, helem⟩ := dfs_ext P (P.length + 1) kv.1 (acc.1, [])
    have hkeys : ∀ x ∈ δ, x ∈ P.map Prod.fst := by
      intro x hx
      rcases helem x hx with rfl | h
      · exact List.mem_map.2 ⟨kv, hkv, rfl⟩
      · exact hasKey_mem h
    have hmark : kv.1 ∈ δ := by
      have h1 : kv.1 ∈ (dfs P (P.length + 1) kv.1 (acc.1, [])).1 :=
        dfs_marks P (P.length) kv.1 (acc.1, [])
      rw [hv] at h1
      rcases List.mem_append.1 h1 with h | h
      · exact h
      · exact absurd h hk
    have hdne : δ ≠ [] := fun h => by rw [h] at hmark; exact List.not_mem_nil _ hmark
    have hc2 : (dfs P (P.length + 1) kv.1 (acc.1, [])).2 = δ.reverse := by
      simpa using hc
    have hlen : ((dfs P (P.length + 1) kv.1 (acc.1, [])).2).length > 0 := by
      rw [hc2]
      simpa [List.length_reverse] using List.length_pos.2 hdne
    rw [if_pos hlen]
    have hfuel : unseen P (acc.1, ([] : List String)).1 < P.length + 1 :=
      Nat.lt_succ_of_le (unseen_le_length P acc.1)
    have hclosed_new : ∀ x ∈ (dfs P (P.length + 1) kv.1 (acc.1, [])).1, x ∉ acc.1 →
        ∀ e ∈ edgesOf P x, hasKey P e.key = true →
          e.key ∈ (dfs P (P.length + 1) kv.1 (acc.1, [])).1 :=
      dfs_closed P (P.length + 1) kv.1 (acc.1, []) hfuel
    refine ⟨⟨?_, ?_, ?_, ?_, ?_, ?_⟩, ?_, ?_⟩
    · -- vis_eq
      rw [hv, hc2, List.flatten_append, List.flatten, hinv.vis_eq]
      simp [List.reverse_append]
    · -- vis_nd
      rw [hv]
      refine List.Nodup.append hnd hinv.vis_nd ?_
      intro x hx1 hx2
      exact hfresh x hx1 hx2
    · -- vis_keys
      rw [hv]
      intro x hx
      rcases List.mem_append.1 hx with h | h
      · exact hkeys x h
      · exact hinv.vis_keys x h
    · -- cl_ne
      intro c hcmem
      rcases List.mem_append.1 hcmem with h | h
      · exact hinv.cl_ne c h
      · rw [hc2] at h
        simp only [List.mem_singleton] at h
        subst h
        simpa using hdne
    · -- closed
      rw [hv]
      intro x hx e he hke
      rcases List.mem_append.1 hx with h | h
      · have hx2 : x ∈ (dfs P (P.length + 1) kv.1 (acc.1, [])).1 := by
          rw [hv]; exact List.mem_append.2 (Or.inl h)
        have := hclosed_new x hx2 (hfresh x h) e he hke
        rw [hv] at this
        exact this
      · exact List.mem_append.2 (Or.inr (hinv.closed x h e he hke))
    · -- sym_cl
      intro c hcmem x hx y hxy hyx hky
      rcases List.mem_append.1 hcmem with h | h
      · exact hinv.sym_cl c h x hx y hxy hyx hky
      · rw [hc2] at h
        simp only [List.mem_singleton] at h
        subst h
        rw [List.mem_reverse] at hx
        rw [List.mem_reverse]
        -- x is freshly visited; its neighbour y lands in the new visited set
        have hx2 : x ∈ (dfs P (P.length + 1) kv.1 (acc.1, [])).1 := by
          rw [hv]; exact List.mem_append.2 (Or.inl hx)
        obtain ⟨e, hee, hek⟩ := hxy
        have hy2 := hclosed_new x hx2 (hfresh x hx) e hee (hek ▸ hky)
        rw [hek, hv] at hy2
        rcases List.mem_append.1 hy2 with h | h
        · exact h
        · -- y was visited in an earlier pass; closedness of the old visited
          -- set would force x there too, contradicting freshness
          exfalso
          obtain ⟨e2, he2, he2k⟩ := hyx
          have hkx : hasKey P x = true := mem_hasKey (hkeys x hx)
          have := hinv.closed y h e2 he2 (he2k ▸ hkx)
          rw [he2k] at this
          exact hfresh x hx this
    · -- the processed key is now visited
      rw [hv]
      exact List.mem_append.2 (Or.inl hmark)
    · -- the visited set only grows
      rw [hv]
      exact fun x hx => List.mem_append.2 (Or.inr hx)

theorem detFold_inv (P : List (String × Particle)) :
    ∀ (l : List (String × Particle)) (acc : List String × List (List String)),
      (∀ kv ∈ l, kv ∈ P) → DetInv P acc →
      DetInv P (l.foldl (detStep P) acc) ∧
        (∀ kv ∈ l, kv.1 ∈ (l.foldl (detStep P) acc).1) ∧
        acc.1 ⊆ (l.foldl (detStep P) acc).1 := by
  intro l
  induction l with
  | nil => exact fun acc _ hinv => ⟨hinv, by simp, fun x hx => hx⟩
  | cons kv rest ih =>
    intro acc hmem hinv
    simp only [List.foldl_cons]
    obtain ⟨hinv2, hkmem, hgrow⟩ := detStep_inv P acc kv (hmem kv (List.mem_cons_self _ _)) hinv
    obtain ⟨hinv3, hall, hgrow2⟩ := ih (detStep P acc kv)
      (fun kv2 h => hmem kv2 (List.mem_cons_of_mem _ h)) hinv2
    refine ⟨hinv3, ?_, fun x hx => hgrow2 (hgrow hx)⟩
    intro kv2 h
    rcases List.mem_cons.1 h with rfl | h
    · exact hgrow2 hkmem
    · exact hall kv2 h

theorem detInv_final (P : List (String × Particle)) :
    DetInv P (P.foldl (detStep P) ([], [])) ∧
      ∀ kv ∈ P, kv.1 ∈ (P.foldl (detStep P) ([], [])).1 := by
  have hinv0 : DetInv P (([], []) : List String × List (List String)) := by
    refine ⟨by simp, List.nodup_nil, by simp, by simp, by simp, by simp⟩
  obtain ⟨h1, h2, -⟩ := detFold_inv P P ([], []) (fun kv h => h) hinv0
  exact ⟨h1, h2⟩

/-- Membership in some cluster, used by the graph-connectivity theorems. -/
theorem detect_mem_of_key (P : List (String × Particle)) {k : String}
    (hk : k ∈ P.map Prod.fst) : ∃ c ∈ detectClusters P, k ∈ c := by
  obtain ⟨hinv, hall⟩ := detInv_final P
  obtain ⟨kv, hkv, rfl⟩ := List.mem_map.1 hk
  have h1 := hall kv hkv
  rw [hinv.vis_eq, List.mem_reverse, List.mem_flatten] at h1
  rw [detectClusters_eq_foldl]
  exact h1

/-- Two mutually adjacent keys of `P` always land in the same cluster. -/
theorem detect_sym_adj (P : List (String × Particle)) {a b : String}
    (hab : Adj P a b) (hba : Adj P b a) (ha : a ∈ P.map Prod.fst)
    (hb : hasKey P b = true) : ∃ c ∈ detectClusters P, a ∈ c ∧ b ∈ c := by
  obtain ⟨hinv, -⟩ := detInv_final P
  obtain ⟨c, hc, hac⟩ := detect_mem_of_key P ha
  refine ⟨c, hc, hac, ?_⟩
  rw [detectClusters_eq_foldl] at hc
  exact hinv.sym_cl c hc a hac b hab hba hb

/-- Claim C1: for every input graph, `detectClusters` returns a partition
of the graph's node ids: every returned cluster is non-empty, every node
id appears in exactly one returned cluster (counted once across their
concatenation), and ids that are not node keys — in particular endpoints
of dangling edges — never appear in the output; the traversal is total,
so dangling edges are skipped without error. -/
theorem C1_detectClusters_partition (P : List (String × Particle)) :
    (∀ c ∈ detectClusters P, c ≠ []) ∧
    (∀ k ∈ P.map Prod.fst, ((detectClusters P).flatten).count k = 1) ∧
    (∀ k : String, k ∉ P.map Prod.fst → ((detectClusters P).flatten).count k = 0) := by
  obtain ⟨hinv, hall⟩ := detInv_final P
  have hflat_nd : ((detectClusters P).flatten).Nodup := by
    have := hinv.vis_nd
    rw [hinv.vis_eq, List.nodup_reverse] at this
    rw [detectClusters_eq_foldl]
    exact this
  have hmem_iff : ∀ k : String,
      k ∈ (detectClusters P).flatten ↔ k ∈ P.map Prod.fst := by
    intro k
    constructor
    · intro hk
      refine hinv.vis_keys k ?_
      rw [hinv.vis_eq, List.mem_reverse, ← detectClusters_eq_foldl]
      exact hk
    · intro hk
      obtain ⟨kv, hkv, rfl⟩ := List.mem_map.1 hk
      have := hall kv hkv
      rw [hinv.vis_eq, List.mem_reverse] at this
      rw [detectClusters_eq_foldl]
      exact this
  refine ⟨?_, ?_, ?_⟩
  · intro c hc
    rw [detectClusters_eq_foldl] at hc
    exact hinv.cl_ne c hc
  · intro k hk
    exact List.count_eq_one_of_mem hflat_nd ((hmem_iff k).2 hk)
  · intro k hk
    refine List.count_eq_zero_of_not_mem ?_
    exact fun h => hk ((hmem_iff k).1 h)

/-- The `find + push` idiom of `prepareGraphData`: add `{key, label}` to a
node's `edges` unless an entry with that key already exists. -/
def addEdgeRef (n : Particle) (k lab : String) : Particle :=
  if (n.edges.find? (fun e => e.key == k)).isSome then n
  else { n with edges := n.edges ++ [⟨k, lab⟩] }

/-- In-place mutation of the node stored under `k`, on the association-list
model. -/
def updateP (P : List (String × Particle)) (k : String) (f : Particle → Particle) :
    List (String × Particle) :=
  P.map (fun kv => if kv.1 = k then (kv.1, f kv.2) else kv)

/-- One step of `prepareGraphData`'s edge-merging loop.  When both
endpoints exist, the forward reference is always recorded on the source
node, and the reverse reference on the target node only when the edge is
not marked directed.  The target-side lookup happens after the source
update, matching the live shared-reference semantics of the JS code
(relevant when `source === target`). -/
def mergeEdge (nodes : List (String × Particle)) (e : GEdge) :
    List (String × Particle) :=
  if (List.lookup e.source nodes).isSome ∧ (List.lookup e.target nodes).isSome then
    if e.directed = true then
      updateP nodes e.source (fun n => addEdgeRef n e.target e.label)
    else
      updateP (updateP nodes e.source (fun n => addEdgeRef n e.target e.label))
        e.target (fun n => addEdgeRef n e.source e.label)
  else nodes

/-- `prepareGraphData(graphData)` on the `{nodes, edges}` graph format:
merge every edge into the nodes' adjacency arrays. -/
def prepareGraphData (g : GraphData) : List (String × Particle) :=
  g.edges.foldl (fun ns ee => mergeEdge ns ee.2) g.nodes

theorem updateP_keys (P : List (String × Particle)) (k : String)
    (f : Particle → Particle) : (updateP P k f).map Prod.fst = P.map Prod.fst := by
  unfold updateP
  rw [List.map_map]
  refine List.map_congr_left ?_
  intro kv _
  by_cases h : kv.1 = k
  · simp [h]
  · simp [h]

theorem mergeEdge_keys (ns : List (String × Particle)) (e : GEdge) :
    (mergeEdge ns e).map Prod.fst = ns.map Prod.fst := by
  unfold mergeEdge
  by_cases h1 : (List.lookup e.source ns).isSome ∧ (List.lookup e.target ns).isSome
  · rw [if_pos h1]
    by_cases h2 : e.directed = true
    · rw [if_pos h2, updateP_keys]
    · rw [if_neg h2, updateP_keys, updateP_keys]
  · rw [if_neg h1]

theorem hasKey_mergeEdge (ns : List (String × Particle)) (e : GEdge) (k : String) :
    hasKey (mergeEdge ns e) k = hasKey ns k := by
  rw [Bool.eq_iff_iff]
  constructor
  · intro h
    refine mem_hasKey ?_
    have := hasKey_mem h
    rwa [mergeEdge_keys] at this
  · intro h
    refine mem_hasKey ?_
    rw [mergeEdge_keys]
    exact hasKey_mem h

theorem lookup_updateP (P : List (String × Particle)) (k k2 : String)
    (f : Particle → Particle) :
    List.lookup k2 (updateP P k f) =
      if k2 = k then (List.lookup k2 P).map f else List.lookup k2 P := by
  induction P with
  | nil => by_cases h : k2 = k <;> simp [updateP, List.lookup, h]
  | cons kv rest ih =>
    obtain ⟨a, b⟩ := kv
    by_cases hak : a = k
    · have hu : updateP ((a, b) :: rest) k f = (a, f b) :: updateP rest k f := by
        unfold updateP
        simp only [List.map_cons, hak, if_true, eq_self_iff_true]
      rw [hu]
      by_cases h2 : k2 = a
      · subst h2
        rw [lookup_cons_self, lookup_cons_self, if_pos hak]
        rfl
      · rw [lookup_cons_ne (f b) _ h2, lookup_cons_ne b rest h2, ih]
    · have hu : updateP ((a, b) :: rest) k f = (a, b) :: updateP rest k f := by
        unfold updateP
        simp only [List.map_cons, if_neg hak]
      rw [hu]
      by_cases h2 : k2 = a
      · subst h2
        have hn : ¬ k2 = k := fun h => hak h
        rw [lookup_cons_self, lookup_cons_self, if_neg hn]
      · rw [lookup_cons_ne b _ h2, lookup_cons_ne b rest h2, ih]

theorem addEdgeRef_mem (n : Particle) (k lab : String) :
    ∃ r ∈ (addEdgeRef n k lab).edges, r.key = k := by
  unfold addEdgeRef
  cases hf : (n.edges.find? (fun e => e.key == k)) with
  | some r =>
    simp only [hf, Option.isSome_some, if_true]
    refine ⟨r, List.mem_of_find?_eq_some hf, ?_⟩
    have := List.find?_some hf
    simpa using this
  | none =>
    simp only [hf, Option.isSome_none, Bool.false_eq_true, if_false]
    exact ⟨⟨k, lab⟩, by simp, rfl⟩

theorem addEdgeRef_mono {n : Particle} {r : EdgeRef} (k lab : String)
    (h : r ∈ n.edges) : r ∈ (addEdgeRef n k lab).edges := by
  unfold addEdgeRef
  by_cases hf : (n.edges.find? (fun e => e.key == k)).isSome
  · rw [if_pos hf]; exact h
  · rw [if_neg hf]; exact List.mem_append.2 (Or.inl h)

theorem adj_updateP_add {ns : List (String × Particle)} {a b : String}
    (k t lab : String) (h : Adj ns a b) :
    Adj (updateP ns k (fun n => addEdgeRef n t lab)) a b := by
  obtain ⟨r, hr, hrk⟩ := h
  unfold edgesOf at hr
  cases hl : List.lookup a ns with
  | none => rw [hl] at hr; exact absurd hr (List.not_mem_nil _)
  | some n =>
    rw [hl] at hr
    by_cases hak : a = k
    · refine ⟨r, ?_, hrk⟩
      unfold edgesOf
      rw [lookup_updateP, if_pos hak, hl]
      exact addEdgeRef_mono t lab hr
    · refine ⟨r, ?_, hrk⟩
      unfold edgesOf
      rw [lookup_updateP, if_neg hak, hl]
      exact hr

theorem adj_mergeEdge_mono {ns : List (String × Particle)} {a b : String}
    (e : GEdge) (h : Adj ns a b) : Adj (mergeEdge ns e) a b := by
  unfold mergeEdge
  by_cases h1 : (List.lookup e.source ns).isSome ∧ (List.lookup e.target ns).isSome
  · rw [if_pos h1]
    by_cases h2 : e.directed = true
    · rw [if_pos h2]
      exact adj_updateP_add _ _ _ h
    · rw [if_neg h2]
      exact adj_updateP_add _ _ _ (adj_updateP_add _ _ _ h)
  · rw [if_neg h1]
    exact h

/-- Processing an undirected edge whose endpoints both exist records the
adjacency in both directions. -/
theorem mergeEdge_adj {ns : List (String × Particle)} {e : GEdge}
    (hdir : e.directed = false) (hs : hasKey ns e.source = true)
    (ht : hasKey ns e.target = true) :
    Adj (mergeEdge ns e) e.source e.target ∧
      Adj (mergeEdge ns e) e.target e.source := by
  unfold hasKey at hs ht
  cases hls : List.lookup e.source ns with
  | none => rw [hls] at hs; simp at hs
  | some n =>
    cases hlt : List.lookup e.target ns with
    | none => rw [hlt] at ht; simp at ht
    | some m =>
      unfold mergeEdge
      rw [if_pos ⟨by rw [hls]; rfl, by rw [hlt]; rfl⟩, if_neg (by rw [hdir]; simp)]
      constructor
      · -- forward reference on the source node
        obtain ⟨r, hr, hrk⟩ := addEdgeRef_mem n e.target e.label
        refine ⟨r, ?_, hrk⟩
        unfold edgesOf
        rw [lookup_updateP]
        by_cases hst : e.source = e.target
        · rw [if_pos hst, lookup_updateP, if_pos rfl, hls]
          exact addEdgeRef_mono _ _ hr
        · rw [if_neg hst, lookup_updateP, if_pos rfl, hls]
          exact hr
      · -- reverse reference on the target node
        by_cases hts : e.target = e.source
        · obtain ⟨r, hr, hrk⟩ :=
            addEdgeRef_mem (addEdgeRef n e.target e.label) e.source e.label
          refine ⟨r, ?_, hrk⟩
          unfold edgesOf
          have hlt2 : List.lookup e.target ns = some n := by rw [hts, hls]
          rw [lookup_updateP, if_pos rfl, lookup_updateP, if_pos hts, hlt2]
          exact hr
        · obtain ⟨r, hr, hrk⟩ := addEdgeRef_mem m e.source e.label
          refine ⟨r, ?_, hrk⟩
          unfold edgesOf
          rw [lookup_updateP, if_pos rfl, lookup_updateP, if_neg hts, hlt]
          exact hr

theorem adj_fold_mono (es : List (String × GEdge)) :
    ∀ (ns : List (String × Particle)) (a b : String), Adj ns a b →
      Adj (es.foldl (fun ns2 ee2 => mergeEdge ns2 ee2.2) ns) a b := by
  induction es with
  | nil => exact fun ns a b h => h
  | cons e2 rest ih =>
    intro ns a b h
    simp only [List.foldl_cons]
    exact ih _ a b (adj_mergeEdge_mono _ h)

theorem prepare_fold_adj (es : List (String × GEdge)) :
    ∀ (ns : List (String × Particle)) (ee : String × GEdge), ee ∈ es →
      ee.2.directed = false → hasKey ns ee.2.source = true →
      hasKey ns ee.2.target = true →
      Adj (es.foldl (fun ns2 ee2 => mergeEdge ns2 ee2.2) ns) ee.2.source ee.2.target ∧
      Adj (es.foldl (fun ns2 ee2 => mergeEdge ns2 ee2.2) ns) ee.2.target ee.2.source := by
  induction es with
  | nil => intro ns ee hmem; exact absurd hmem (List.not_mem_nil _)
  | cons e2 rest ih =>
    intro ns ee hmem hdir hs ht
    simp only [List.foldl_cons]
    rcases List.mem_cons.1 hmem with rfl | hmem2
    · obtain ⟨h1, h2⟩ := mergeEdge_adj hdir hs ht
      exact ⟨adj_fold_mono rest _ _ _ h1, adj_fold_mono rest _ _ _ h2⟩
    · exact ih (mergeEdge ns e2.2) ee hmem2 hdir
        (by rw [hasKey_mergeEdge]; exact hs) (by rw [hasKey_mergeEdge]; exact ht)

theorem hasKey_prepare_fold (es : List (String × GEdge)) :
    ∀ (ns : List (String × Particle)) (k : String),
      hasKey (es.foldl (fun ns2 ee2 => mergeEdge ns2 ee2.2) ns) k = hasKey ns k := by
  induction es with
  | nil => exact fun ns k => rfl
  | cons e2 rest ih =>
    intro ns k
    simp only [List.foldl_cons]
    rw [ih, hasKey_mergeEdge]

/-- A particle with no adjacency and default display fields, used by the
concrete instances below. -/
def blankParticle : Particle :=
  { x := 0, y := 0, radius := 20, title := "", color := "", data := "", edges := [] }

/-- Nodes in insertion order `b`, then `a`. -/
def c2nodes : List (String × Particle) := [("b", blankParticle), ("a", blankParticle)]

/-- A graph whose only edge is the directed edge `a → b`; both endpoint
nodes exist, and `b` precedes `a` in node insertion order. -/
def c2graphDirected : GraphData := ⟨c2nodes, [("e1", ⟨"a", "b", true, ""⟩)]⟩

/-- Claim C2 counterexample: under `prepareGraphData` a directed edge gets
only the forward adjacency `source → target`, and `detectClusters`' outer
loop reaches `b` (which has no outgoing references) before `a`, so the two
endpoints of the directed edge `a → b` land in different clusters even
though both endpoint nodes exist.  Cluster detection therefore does not
treat every edge as bidirectional regardless of its `directed` flag. -/
theorem C2_cex_directed_edge_splits :
    (List.lookup "a" c2graphDirected.nodes).isSome = true ∧
    (List.lookup "b" c2graphDirected.nodes).isSome = true ∧
    ¬ ∃ c ∈ detectClusters (prepareGraphData c2graphDirected),
        "a" ∈ c ∧ "b" ∈ c := by
  refine ⟨by decide, by decide, ?_⟩
  decide

/-- Claim C2 (amended): for every graph and every edge whose `directed`
flag is false and whose two endpoint nodes both exist, source and target
are placed in the same cluster by `detectClusters` run on the adjacency
produced by `prepareGraphData`.  (An edge marked directed contributes
adjacency only from source to target and need not merge its endpoints.) -/
theorem C2_undirected_edge_same_cluster (g : GraphData) (ee : String × GEdge)
    (he : ee ∈ g.edges) (hdir : ee.2.directed = false)
    (hs : hasKey g.nodes ee.2.source = true)
    (ht : hasKey g.nodes ee.2.target = true) :
    ∃ c ∈ detectClusters (prepareGraphData g),
      ee.2.source ∈ c ∧ ee.2.target ∈ c := by
  obtain ⟨h1, h2⟩ := prepare_fold_adj g.edges g.nodes ee he hdir hs ht
  have ha : ee.2.source ∈ (prepareGraphData g).map Prod.fst := by
    refine hasKey_mem ?_
    rw [prepareGraphData, hasKey_prepare_fold]
    exact hs
  have hb : hasKey (prepareGraphData g) ee.2.target = true := by
    rw [prepareGraphData, hasKey_prepare_fold]
    exact ht
  exact detect_sym_adj (prepareGraphData g) h1 h2 ha hb

/-- The same two-node graph with the edge not marked directed. -/
def c2graphUndirected : GraphData := ⟨c2nodes, [("e1", ⟨"a", "b", false, ""⟩)]⟩

/-- Witness for the amended C2 theorem at a concrete input. -/
theorem C2_undirected_edge_same_cluster_witness :
    (("e1", (⟨"a", "b", false, ""⟩ : GEdge)) ∈ c2graphUndirected.edges ∧
      hasKey c2graphUndirected.nodes "a" = true ∧
      hasKey c2graphUndirected.nodes "b" = true) ∧
    ∃ c ∈ detectClusters (prepareGraphData c2graphUndirected),
      "a" ∈ c ∧ "b" ∈ c :=
  ⟨⟨by decide, by decide, by decide⟩,
    C2_undirected_edge_same_cluster c2graphUndirected ("e1", ⟨"a", "b", false, ""⟩)
      (by decide) rfl (by decide) (by decide)⟩

/-- Members of every detected cluster are keys of the particle map. -/
theorem detect_members_keys (P : List (String × Particle)) :
    ∀ c ∈ detectClusters P, ∀ x ∈ c, x ∈ P.map Prod.fst := by
  obtain ⟨hinv, -⟩ := detInv_final P
  intro c hc x hx
  refine hinv.vis_keys x ?_
  rw [hinv.vis_eq, List.mem_reverse, List.mem_flatten]
  rw [detectClusters_eq_foldl] at hc
  exact ⟨c, hc, hx⟩

/-- Every key of the particle map occurs in some detected cluster. -/
theorem detect_keys_covered (P : List (String × Particle)) :
    ∀ k ∈ P.map Prod.fst, ∃ c ∈ detectClusters P, k ∈ c :=
  fun _ hk => detect_mem_of_key P hk

/-! ### Grid Sort Layout Engine (`src/public/sort-particles.js`)

Constructor constants of `ParticleSorter`. -/

def nodeSpacing : ℝ := 300

def clusterSpacing : ℝ := 600

def topMargin : ℝ := 80

def leftMargin : ℝ := 30

def diagonalOffset : ℝ := 30

/-- Per-node connection count:
`particle && particle.edges ? particle.edges.length : 0`. -/
def connCount (P : List (String × Particle)) (k : String) : ℕ :=
  (edgesOf P k).length

/-- `calculateClusterConnectionCount(clusterNodes, particles)`. -/
def calculateClusterConnectionCount (cluster : List String)
    (P : List (String × Particle)) : ℕ :=
  (cluster.map (connCount P)).sum

/-- `sortClustersByConnectionCount(clusters, particles)`:
`Array.prototype.sort` with comparator `b - a` — a stable sort into
non-increasing connection-count order. -/
def sortClustersByConnectionCount (clusters : List (List String))
    (P : List (String × Particle)) : List (List String) :=
  List.insertionSort
    (fun c d => calculateClusterConnectionCount d P ≤ calculateClusterConnectionCount c P)
    clusters

/-- Distinct values of `l` in order of first occurrence — the key order of
a JS `Map` built by insertion. -/
def firstDedup (l : List ℕ) : List ℕ :=
  l.foldl (fun acc x => if x ∈ acc then acc else acc ++ [x]) []

/-- Numeric sort `(a, b) => b - a` into non-increasing order. -/
def sortDescNat (l : List ℕ) : List ℕ :=
  List.insertionSort (fun a b => b ≤ a) l

/-- `groupNodesByConnectionCount(clusterNodes, particles)`: group the
cluster members by connection count and list the groups by descending
count.  The JS builds a `Map` from count to members in cluster order; a
group for count `c` is exactly the members whose count is `c`, in cluster
order, which the filter reproduces. -/
def groupNodesByConnectionCount (cluster : List String)
    (P : List (String × Particle)) : List (List String) :=
  (sortDescNat (firstDedup (cluster.map (connCount P)))).map
    (fun c => cluster.filter (fun k => connCount P k = c))

/-- `particle ? particle.radius : 20`. -/
def radiusOfD (P : List (String × Particle)) (k : String) : ℝ :=
  match List.lookup k P with
  | some p => p.radius
  | none => 20

/-- Placement of one connection-count level (row): node `i` of the level
sits at `x = levelStartX + i*nodeSpacing` and
`y = currentY + i*diagonalOffset`, with only `y` clamped into canvas
bounds. -/
def placeLevel (P : List (String × Particle)) (cv : Canvas) (startX y0 : ℝ)
    (level : List String) : List (String × ℝ × ℝ) :=
  level.enum.map (fun ik =>
    (ik.2, startX + (ik.1 : ℝ) * nodeSpacing,
      max (radiusOfD P ik.2)
        (min (cv.height - radiusOfD P ik.2) (y0 + (ik.1 : ℝ) * diagonalOffset))))

/-- Placement of one cluster: levels stacked downward from `topMargin`
with `nodeSpacing` per row. -/
def placeCluster (P : List (String × Particle)) (cv : Canvas) (startX : ℝ)
    (cluster : List String) : List (String × ℝ × ℝ) :=
  ((groupNodesByConnectionCount cluster P).enum.map
    (fun il => placeLevel P cv startX (topMargin + (il.1 : ℝ) * nodeSpacing) il.2)).flatten

/-- `Math.max(...connectionLevels.map(l => l.length)) * nodeSpacing`.  The
levels of a non-empty cluster are non-empty, where the list maximum
agrees with the JS spread `Math.max`. -/
def clusterWidth (P : List (String × Particle)) (cluster : List String) : ℝ :=
  (((((groupNodesByConnectionCount cluster P).map List.length).max?).getD 0 : ℕ) : ℝ) *
    nodeSpacing

/-- The running x-cursor of `calculateGridPositions`: each sorted cluster
is paired with the band start it is laid out at; the cursor then advances
by the cluster's width plus `clusterSpacing`. -/
def gridBands (P : List (String × Particle)) (clusters : List (List String)) :
    List (ℝ × List String) :=
  (clusters.foldl
    (fun (acc : ℝ × List (ℝ × List String)) c =>
      (acc.1 + clusterWidth P c + clusterSpacing, acc.2 ++ [(acc.1, c)]))
    (leftMargin, [])).2

/-- `calculateGridPositions(particles)`: detect clusters, sort them by
total connection count, and lay each out left-to-right at its band
start. -/
def calculateGridPositions (P : List (String × Particle)) (cv : Canvas) :
    List (String × ℝ × ℝ) :=
  ((gridBands P (sortClustersByConnectionCount (detectClusters P) P)).map
    (fun b => placeCluster P cv b.1 b.2)).flatten

/-- Specification helper: the band list laid out from cursor `x0`. -/
def bandsFrom (P : List (String × Particle)) (x0 : ℝ) :
    List (List String) → List (ℝ × List String)
  | [] => []
  | c :: cs => (x0, c) :: bandsFrom P (x0 + clusterWidth P c + clusterSpacing) cs

theorem gridBands_aux (P : List (String × Particle)) :
    ∀ (clusters : List (List String)) (x0 : ℝ) (pre : List (ℝ × List String)),
      (clusters.foldl
        (fun (acc : ℝ × List (ℝ × List String)) c =>
          (acc.1 + clusterWidth P c + clusterSpacing, acc.2 ++ [(acc.1, c)]))
        (x0, pre)).2 = pre ++ bandsFrom P x0 clusters := by
  intro clusters
  induction clusters with
  | nil => intro x0 pre; simp [bandsFrom]
  | cons c cs ih =>
    intro x0 pre
    simp only [List.foldl_cons, bandsFrom]
    rw [ih]
    simp

theorem gridBands_eq_bandsFrom (P : List (String × Particle))
    (clusters : List (List String)) :
    gridBands P clusters = bandsFrom P leftMargin clusters := by
  unfold gridBands
  rw [gridBands_aux]
  simp

theorem bandsFrom_length (P : List (String × Particle)) :
    ∀ (clusters : List (List String)) (x0 : ℝ),
      (bandsFrom P x0 clusters).length = clusters.length := by
  intro clusters
  induction clusters with
  | nil => intro x0; rfl
  | cons c cs ih => intro x0; simp [bandsFrom, ih]

theorem bandsFrom_get_snd (P : List (String × Particle)) :
    ∀ (clusters : List (List String)) (x0 : ℝ) (i : ℕ)
      (hi : i < (bandsFrom P x0 clusters).length)
      (hi2 : i < clusters.length),
      ((bandsFrom P x0 clusters).get ⟨i, hi⟩).2 = clusters.get ⟨i, hi2⟩ := by
  intro clusters
  induction clusters with
  | nil => intro x0 i hi hi2; simp at hi2
  | cons c cs ih =>
    intro x0 i hi hi2
    cases i with
    | zero => rfl
    | succ n =>
      simp only [bandsFrom, List.get_cons_succ]
      exact ih _ n _ (Nat.lt_of_succ_lt_succ hi2)

theorem clusterWidth_nonneg (P : List (String × Particle)) (c : List String) :
    0 ≤ clusterWidth P c := by
  unfold clusterWidth nodeSpacing
  positivity

theorem bandsFrom_cursor_le (P : List (String × Particle)) :
    ∀ (clusters : List (List String)) (x0 : ℝ) (b : ℝ × List String),
      b ∈ bandsFrom P x0 clusters → x0 ≤ b.1 := by
  intro clusters
  induction clusters with
  | nil => intro x0 b hb; exact absurd hb (List.not_mem_nil _)
  | cons c cs ih =>
    intro x0 b hb
    rcases List.mem_cons.1 hb with rfl | hb
    · exact le_refl _
    · have h1 := ih (x0 + clusterWidth P c + clusterSpacing) b hb
      have h2 : 0 ≤ clusterWidth P c := clusterWidth_nonneg P c
      have h3 : (0 : ℝ) < clusterSpacing := by unfold clusterSpacing; norm_num
      linarith

/-- The x-cursor strictly increases from band to band. -/
theorem bandsFrom_strict_mono (P : List (String × Particle)) :
    ∀ (clusters : List (List String)) (x0 : ℝ) (i j : ℕ)
      (hi : i < (bandsFrom P x0 clusters).length)
      (hj : j < (bandsFrom P x0 clusters).length), i < j →
      ((bandsFrom P x0 clusters).get ⟨i, hi⟩).1 <
        ((bandsFrom P x0 clusters).get ⟨j, hj⟩).1 := by
  intro clusters
  induction clusters with
  | nil => intro x0 i j hi; simp [bandsFrom] at hi
  | cons c cs ih =>
    intro x0 i j hi hj hij
    cases i with
    | zero =>
      cases j with
      | zero => exact absurd hij (lt_irrefl 0)
      | succ m =>
        have hget : ((bandsFrom P x0 (c :: cs)).get ⟨0, hi⟩).1 = x0 := rfl
        rw [hget]
        have hmem : (bandsFrom P x0 (c :: cs)).get ⟨m + 1, hj⟩ ∈
            bandsFrom P (x0 + clusterWidth P c + clusterSpacing) cs := by
          have : (bandsFrom P x0 (c :: cs)).get ⟨m + 1, hj⟩ =
              (bandsFrom P (x0 + clusterWidth P c + clusterSpacing) cs).get
                ⟨m, Nat.lt_of_succ_lt_succ hj⟩ := rfl
          rw [this]
          exact List.get_mem _ _ _
        have h1 := bandsFrom_cursor_le P cs _ _ hmem
        have h2 : 0 ≤ clusterWidth P c := clusterWidth_nonneg P c
        have h3 : (0 : ℝ) < clusterSpacing := by unfold clusterSpacing; norm_num
        linarith
    | succ n =>
      cases j with
      | zero => exact absurd hij (by omega)
      | succ m =>
        exact ih _ n m (Nat.lt_of_succ_lt_succ hi) (Nat.lt_of_succ_lt_succ hj)
          (Nat.lt_of_succ_lt_succ hij)

theorem sortClusters_sorted (clusters : List (List String))
    (P : List (String × Particle)) :
    (sortClustersByConnectionCount clusters P).Sorted
      (fun c d => calculateClusterConnectionCount d P ≤
        calculateClusterConnectionCount c P) := by
  haveI ht : IsTotal (List String)
      (fun c d => calculateClusterConnectionCount d P ≤
        calculateClusterConnectionCount c P) :=
    ⟨fun a b => le_total _ _⟩
  haveI htr : IsTrans (List String)
      (fun c d => calculateClusterConnectionCount d P ≤
        calculateClusterConnectionCount c P) :=
    ⟨fun a b c hab hbc => le_trans hbc hab⟩
  exact List.sorted_insertionSort _ _

theorem sortClusters_perm (clusters : List (List String))
    (P : List (String × Particle)) :
    (sortClustersByConnectionCount clusters P).Perm clusters :=
  List.perm_insertionSort _ _

/-- Claim C5: after a grid-sort pass, clusters occupy horizontal bands
left-to-right in non-increasing order of total internal degree sum: if one
band's cluster has a strictly larger connection-count sum than another's,
the first band starts at a strictly smaller x coordinate.  Bands are the
(start-x, cluster) pairs of the running x-cursor of
`calculateGridPositions` over the sorted clusters. -/
theorem C5_grid_sort_ordering (P : List (String × Particle))
    (b1 b2 : ℝ × List String)
    (h1 : b1 ∈ gridBands P (sortClustersByConnectionCount (detectClusters P) P))
    (h2 : b2 ∈ gridBands P (sortClustersByConnectionCount (detectClusters P) P))
    (hconn : calculateClusterConnectionCount b2.2 P <
      calculateClusterConnectionCount b1.2 P) :
    b1.1 < b2.1 := by
  rw [gridBands_eq_bandsFrom] at h1 h2
  obtain ⟨⟨i, hi⟩, hbi⟩ := List.mem_iff_get.1 h1
  obtain ⟨⟨j, hj⟩, hbj⟩ := List.mem_iff_get.1 h2
  have hlen : (bandsFrom P leftMargin
      (sortClustersByConnectionCount (detectClusters P) P)).length =
      (sortClustersByConnectionCount (detectClusters P) P).length :=
    bandsFrom_length P _ _
  have hij : i < j := by
    by_contra hle
    push_neg at hle
    rcases Nat.lt_or_ge j i with hlt | hge
    · have hsorted := sortClusters_sorted (detectClusters P) P
      rw [List.Sorted, List.pairwise_iff_get] at hsorted
      have hji := hsorted ⟨j, by omega⟩ ⟨i, by omega⟩ hlt
      have hsi := bandsFrom_get_snd P
        (sortClustersByConnectionCount (detectClusters P) P) leftMargin i hi (by omega)
      have hsj := bandsFrom_get_snd P
        (sortClustersByConnectionCount (detectClusters P) P) leftMargin j hj (by omega)
      rw [hbi] at hsi
      rw [hbj] at hsj
      rw [hsi, hsj] at hconn
      exact absurd hconn (not_lt.2 hji)
    · have hji : j = i := by omega
      subst hji
      rw [hbi] at hbj
      rw [hbj] at hconn
      exact absurd hconn (lt_irrefl _)
  have := bandsFrom_strict_mono P
    (sortClustersByConnectionCount (detectClusters P) P) leftMargin i j hi hj hij
  rw [hbi, hbj] at this
  exact this

/-- Concrete graph for the grid-sort witness: one 2-node cluster with
connection sum 2 and one isolated node with connection sum 0. -/
def w5P : List (String × Particle) :=
  [("a", { blankParticle with edges := [⟨"b", ""⟩] }),
   ("b", { blankParticle with edges := [⟨"a", ""⟩] }),
   ("c", blankParticle)]

/-- Witness for C5 at a concrete input: the higher-connectivity cluster's
band starts strictly left of the lower one's. -/
theorem C5_grid_sort_ordering_witness :
    ∃ x1 x2 : ℝ,
      (x1, ["a", "b"]) ∈
        gridBands w5P (sortClustersByConnectionCount (detectClusters w5P) w5P) ∧
      (x2, ["c"]) ∈
        gridBands w5P (sortClustersByConnectionCount (detectClusters w5P) w5P) ∧
      calculateClusterConnectionCount ["c"] w5P <
        calculateClusterConnectionCount ["a", "b"] w5P ∧
      x1 < x2 := by
  have h : gridBands w5P (sortClustersByConnectionCount (detectClusters w5P) w5P) =
      [(leftMargin, ["a", "b"]),
       (leftMargin + clusterWidth w5P ["a", "b"] + clusterSpacing, ["c"])] := rfl
  have hm1 : ((leftMargin, ["a", "b"]) : ℝ × List String) ∈
      gridBands w5P (sortClustersByConnectionCount (detectClusters w5P) w5P) := by
    rw [h]; exact List.mem_cons_self _ _
  have hm2 : ((leftMargin + clusterWidth w5P ["a", "b"] + clusterSpacing,
      ["c"]) : ℝ × List String) ∈
      gridBands w5P (sortClustersByConnectionCount (detectClusters w5P) w5P) := by
    rw [h]; exact List.mem_cons_of_mem _ (List.mem_cons_self _ _)
  refine ⟨leftMargin, leftMargin + clusterWidth w5P ["a", "b"] + clusterSpacing,
    hm1, hm2, by decide, ?_⟩
  exact C5_grid_sort_ordering w5P _ _ hm1 hm2 (by decide)

theorem mem_firstDedup {l : List ℕ} {x : ℕ} (h : x ∈ l) : x ∈ firstDedup l := by
  unfold firstDedup
  have hgen : ∀ (l2 : List ℕ) (acc : List ℕ), x ∈ acc ∨ x ∈ l2 →
      x ∈ l2.foldl (fun acc2 y => if y ∈ acc2 then acc2 else acc2 ++ [y]) acc := by
    intro l2
    induction l2 with
    | nil =>
      intro acc hx
      rcases hx with hx | hx
      · exact hx
      · exact absurd hx (List.not_mem_nil _)
    | cons y rest ih =>
      intro acc hx
      simp only [List.foldl_cons]
      by_cases hy : y ∈ acc
      · rw [if_pos hy]
        refine ih acc ?_
        rcases hx with hx | hx
        · exact Or.inl hx
        · rcases List.mem_cons.1 hx with rfl | hx
          · exact Or.inl hy
          · exact Or.inr hx
      · rw [if_neg hy]
        refine ih (acc ++ [y]) ?_
        rcases hx with hx | hx
        · exact Or.inl (List.mem_append.2 (Or.inl hx))
        · rcases List.mem_cons.1 hx with rfl | hx
          · exact Or.inl (List.mem_append.2 (Or.inr (List.mem_singleton.2 rfl)))
          · exact Or.inr hx
  exact hgen l [] (Or.inr h)

theorem mem_sortDescNat {l : List ℕ} {x : ℕ} (h : x ∈ l) : x ∈ sortDescNat l :=
  (List.Perm.mem_iff (List.perm_insertionSort _ _)).2 h

theorem bandsFrom_mem_of_mem (P : List (String × Particle)) :
    ∀ (clusters : List (List String)) (x0 : ℝ) (c : List String), c ∈ clusters →
      ∃ x, (x, c) ∈ bandsFrom P x0 clusters := by
  intro clusters
  induction clusters with
  | nil => intro x0 c hc; exact absurd hc (List.not_mem_nil _)
  | cons c2 cs ih =>
    intro x0 c hc
    rcases List.mem_cons.1 hc with rfl | hc
    · exact ⟨x0, List.mem_cons_self _ _⟩
    · obtain ⟨x, hx⟩ := ih (x0 + clusterWidth P c2 + clusterSpacing) c hc
      exact ⟨x, List.mem_cons_of_mem _ hx⟩

/-- A cluster member receives an entry in its cluster's placement, with
the clamped-y shape of `placeLevel`. -/
theorem placeCluster_covers (P : List (String × Particle)) (cv : Canvas)
    (startX : ℝ) (cluster : List String) (k : String) (hk : k ∈ cluster) :
    ∃ e ∈ placeCluster P cv startX cluster, e.1 = k ∧
      ∃ y : ℝ, e.2.2 =
        max (radiusOfD P k) (min (cv.height - radiusOfD P k) y) := by
  have hcnt : connCount P k ∈ sortDescNat (firstDedup (cluster.map (connCount P))) :=
    mem_sortDescNat (mem_firstDedup (List.mem_map.2 ⟨k, hk, rfl⟩))
  set lev := cluster.filter (fun k2 => connCount P k2 = connCount P k) with hlev
  have hglev : lev ∈ groupNodesByConnectionCount cluster P := by
    unfold groupNodesByConnectionCount
    refine List.mem_map.2 ⟨connCount P k, hcnt, ?_⟩
    rfl
  have hkl : k ∈ lev := by
    rw [hlev]
    simp only [List.mem_filter, decide_eq_true_eq]
    exact ⟨hk, trivial⟩
  obtain ⟨i, hi, hgl⟩ := List.mem_iff_getElem.1 hglev
  have henum : ((i, lev) : ℕ × List String) ∈
      (groupNodesByConnectionCount cluster P).enum := by
    rw [List.mk_mem_enum_iff_getElem?, List.getElem?_eq_getElem hi, hgl]
  obtain ⟨m, hm, hml⟩ := List.mem_iff_getElem.1 hkl
  have hmem2 : ((m, k) : ℕ × String) ∈ lev.enum := by
    rw [List.mk_mem_enum_iff_getElem?, List.getElem?_eq_getElem hm, hml]
  refine ⟨(k, startX + (m : ℝ) * nodeSpacing,
    max (radiusOfD P k) (min (cv.height - radiusOfD P k)
      ((topMargin + (i : ℝ) * nodeSpacing) + (m : ℝ) * diagonalOffset))), ?_, rfl, ?_⟩
  · unfold placeCluster
    rw [List.mem_flatten]
    refine ⟨placeLevel P cv startX (topMargin + (i : ℝ) * nodeSpacing) lev,
      List.mem_map.2 ⟨(i, lev), henum, rfl⟩, ?_⟩
    unfold placeLevel
    exact List.mem_map.2 ⟨(m, k), hmem2, rfl⟩
  · exact ⟨(topMargin + (i : ℝ) * nodeSpacing) + (m : ℝ) * diagonalOffset, rfl⟩

/-- Claim C3 (amended, provable part): after a grid-sort pass, every node
of the input graph whose own diameter fits the canvas vertically
(`2*radius ≤ height`) receives a target whose y coordinate lies within
`[radius, canvasHeight - radius]` — the clamp is per node, so other
nodes of the map may be arbitrarily large.  The x coordinate is
intentionally not clamped by `calculateGridPositions` and carries no
such bound. -/
theorem C3_sort_y_bounds (P : List (String × Particle)) (cv : Canvas)
    (k : String) (hk : k ∈ P.map Prod.fst)
    (h2rk : 2 * radiusOfD P k ≤ cv.height) :
    ∃ e ∈ calculateGridPositions P cv, e.1 = k ∧
      radiusOfD P k ≤ e.2.2 ∧ e.2.2 ≤ cv.height - radiusOfD P k := by
  obtain ⟨c, hc, hkc⟩ := detect_keys_covered P k hk
  have hcs : c ∈ sortClustersByConnectionCount (detectClusters P) P :=
    (List.Perm.mem_iff (sortClusters_perm (detectClusters P) P)).2 hc
  obtain ⟨x, hxband⟩ := bandsFrom_mem_of_mem P _ leftMargin c hcs
  rw [← gridBands_eq_bandsFrom] at hxband
  obtain ⟨e, hemem, hek, y, hey⟩ := placeCluster_covers P cv x c k hkc
  refine ⟨e, ?_, hek, ?_, ?_⟩
  · unfold calculateGridPositions
    rw [List.mem_flatten]
    exact ⟨placeCluster P cv x c, List.mem_map.2 ⟨(x, c), hxband, rfl⟩, hemem⟩
  · rw [hey]
    exact le_max_left _ _
  · rw [hey]
    refine max_le (by linarith) ?_
    exact le_trans (min_le_left _ _) (le_refl _)

/-! ### Radial Shuffle Layout Engine (`shuffle-particles.js`)

Constructor constants of `ParticleShuffler`.  Geometry uses `ℝ` with
`Real.sqrt`/`Real.cos`/`Real.sin` for the corresponding `Math` calls, so
these definitions are noncomputable; concrete instances are evaluated by
`simp`/`norm_num` in the theorems below. -/

def animationSpeed : ℝ := 0.15

def centerForceStrength : ℝ := 0.8

def edgeForceStrength : ℝ := 0.6

def repulsionStrength : ℝ := 50

def minRadius : ℝ := 100

def clusterSeparationDistance : ℝ := 400

def clusterBoundaryPadding : ℝ := 80

def interClusterRepulsion : ℝ := 200

def enableClusterSeparation : Bool := true

/-- A target position record `{x, y, radius, clusterId?, clusterCenter?}`;
the optional fields are set only on the multi-cluster path. -/
structure Target where
  x : ℝ
  y : ℝ
  radius : ℝ
  clusterId : Option ℕ
  clusterCenter : Option (ℝ × ℝ)

/-- `Math.min(...)` over a spread list.  The layouts only apply it to
non-empty lists, where this fold agrees; `0` stands in for the unreachable
empty case (JS yields `Infinity` there). -/
def jsMin : List ℝ → ℝ
  | [] => 0
  | x :: xs => xs.foldl min x

/-- `Math.max(...)` over a spread list; see `jsMin`. -/
def jsMax : List ℝ → ℝ
  | [] => 0
  | x :: xs => xs.foldl max x

/-- JS `v || 1` on a number: `0` is falsy. -/
noncomputable def orOne (v : ℝ) : ℝ := if v = 0 then 1 else v

/-- JS `particle.radius || 20`. -/
noncomputable def radiusOr20 (r : ℝ) : ℝ := if r = 0 then 20 else r

/-- The centrality normalization shared by `calculateSingleClusterTargets`
and `calculateClusterLocalTargets`: the range is `max - min || 1` and the
`range === 0` guard (unreachable after `|| 1`) would yield `0.5`. -/
noncomputable def normalizeCentrality (level minC maxC : ℝ) : ℝ :=
  if orOne (maxC - minC) = 0 then 1 / 2 else (level - minC) / orOne (maxC - minC)

/-- `calculateCentrality(particles)`: degree (edge count) per key. -/
def calculateCentrality (P : List (String × Particle)) : List (String × ℕ) :=
  P.map (fun kv => (kv.1, kv.2.edges.length))

/-- Distinct centrality scores, highest first — the iteration order of
`sortedCentralityLevels`. -/
def centralityLevels (centrality : List (String × ℕ)) : List ℕ :=
  sortDescNat (firstDedup (centrality.map Prod.snd))

/-- The group of keys at a given centrality score, in insertion order —
the `centralityGroups` bucket for that score. -/
def centralityGroup (centrality : List (String × ℕ)) (c : ℕ) : List String :=
  (centrality.filter (fun kv => kv.2 = c)).map Prod.fst

/-- `calculateClusterRadius(clusterNodes, particles)`. -/
noncomputable def calculateClusterRadius (clusterNodes : List String)
    (P : List (String × Particle)) : ℝ :=
  max minRadius (minRadius * (Real.sqrt (clusterNodes.length : ℝ) * 0.5))

/-- `calculateSingleClusterTargets(particles, centrality)`: concentric
rings around the canvas center, one ring radius per centrality level,
members spread by `2π/groupSize` with jitter `rnd * 0.5` (the
`Math.random()` stream is the explicit parameter `rnd`, indexed by level
position and index within the level), each coordinate clamped into canvas
bounds by the particle's own radius. -/
noncomputable def calculateSingleClusterTargets (cv : Canvas)
    (P : List (String × Particle)) (centrality : List (String × ℕ))
    (rnd : ℕ → ℕ → ℝ) : List (String × Target) :=
  let centerX := cv.width / 2
  let centerY := cv.height / 2
  let maxParticleRadius := jsMax (P.map (fun kv => radiusOr20 kv.2.radius))
  let canvasBoundary := min cv.width cv.height / 2
  let maxRadius := max (minRadius + 50) (canvasBoundary - maxParticleRadius - 20)
  let centralityValues := centrality.map (fun kv => (kv.2 : ℝ))
  let minCentrality := jsMin centralityValues
  let maxCentrality := jsMax centralityValues
  ((centralityLevels centrality).enum.map (fun lc =>
    let normalized := normalizeCentrality ((lc.2 : ℕ) : ℝ) minCentrality maxCentrality
    let targetRadius := minRadius + 10 + (maxRadius - minRadius - 10) * (1 - normalized)
    let group := centralityGroup centrality lc.2
    let angleStep := 2 * Real.pi / (group.length : ℝ)
    group.enum.map (fun ik =>
      let angle := (ik.1 : ℝ) * angleStep + rnd lc.1 ik.1 * 0.5
      let x0 := centerX + Real.cos angle * targetRadius
      let y0 := centerY + Real.sin angle * targetRadius
      let pr := radiusOr20 (radiusOfD P ik.2)
      (ik.2, ({ x := max pr (min (cv.width - pr) x0),
                y := max pr (min (cv.height - pr) y0),
                radius := targetRadius, clusterId := none,
                clusterCenter := none } : Target))))).flatten

/-- `calculateClusterLocalTargets(clusterParticles, clusterCentrality,
clusterCenter, clusterRadius)`: rings around the cluster's own center
between a minimum and maximum local radius, jitter `rnd * 0.3`, with no
canvas clamping. -/
noncomputable def calculateClusterLocalTargets
    (clusterParticles : List (String × Particle))
    (clusterCentrality : List (String × ℕ)) (clusterCenter : ℝ × ℝ)
    (clusterRadius : ℝ) (rnd : ℕ → ℕ → ℝ) : List (String × Target) :=
  let centralityValues := clusterCentrality.map (fun kv => (kv.2 : ℝ))
  let minCentrality := jsMin centralityValues
  let maxCentrality := jsMax centralityValues
  let minLocalRadius := min 30 (clusterRadius * 0.2)
  let maxLocalRadius := clusterRadius - clusterBoundaryPadding
  ((centralityLevels clusterCentrality).enum.map (fun lc =>
    let normalized := normalizeCentrality ((lc.2 : ℕ) : ℝ) minCentrality maxCentrality
    let localRadius := minLocalRadius + (maxLocalRadius - minLocalRadius) * (1 - normalized)
    let group := centralityGroup clusterCentrality lc.2
    let angleStep := 2 * Real.pi / (group.length : ℝ)
    group.enum.map (fun ik =>
      let angle := (ik.1 : ℝ) * angleStep + rnd lc.1 ik.1 * 0.3
      (ik.2, ({ x := clusterCenter.1 + Real.cos angle * localRadius,
                y := clusterCenter.2 + Real.sin angle * localRadius,
                radius := localRadius, clusterId := none,
                clusterCenter := none } : Target))))).flatten

/-- `calculateClusterCenters(clusters)`. -/
noncomputable def calculateClusterCenters (cv : Canvas)
    (clusters : List (List String)) : List (ℝ × ℝ) :=
  let safeMargin := minRadius * 2 + 50
  let minX := safeMargin
  let maxX := cv.width - safeMargin
  let minY := safeMargin
  let maxY := cv.height - safeMargin
  let n := clusters.length
  if n = 1 then [(cv.width / 2, cv.height / 2)]
  else if n = 2 then
    let centerY := cv.height / 2
    let separation := min clusterSeparationDistance ((maxX - minX) * 0.6)
    [(max minX (cv.width / 2 - separation / 2), centerY),
     (min maxX (cv.width / 2 + separation / 2), centerY)]
  else
    let cX := cv.width / 2
    let cY := cv.height / 2
    let maxDistributionRadius := min ((maxX - minX) / 2) ((maxY - minY) / 2)
    let distributionRadius := min maxDistributionRadius (min cv.width cv.height * 0.25)
    if n ≤ 6 then
      (List.range n).map (fun i =>
        let angle := (i : ℝ) * (2 * Real.pi / (n : ℝ))
        (max minX (min maxX (cX + Real.cos angle * distributionRadius)),
         max minY (min maxY (cY + Real.sin angle * distributionRadius))))
    else
      let cols := Nat.ceil (Real.sqrt (n : ℝ))
      let rows := Nat.ceil ((n : ℝ) / (cols : ℝ))
      let cellWidth := (maxX - minX) / (cols : ℝ)
      let cellHeight := (maxY - minY) / (rows : ℝ)
      (List.range n).map (fun i =>
        (minX + (((i % cols : ℕ) : ℝ) + 0.5) * cellWidth,
         minY + (((i / cols : ℕ) : ℝ) + 0.5) * cellHeight))

/-- The branch condition of `calculateTargetPositions`: one cluster, or
several of which only one has size above 1. -/
def shouldUseSingleCluster (clusters : List (List String)) : Bool :=
  decide (clusters.length = 1) ||
    (decide (clusters.length > 1) &&
      decide ((clusters.filter (fun c => c.length > 1)).length = 1))

/-- `calculateTargetPositions(particles, centrality)`.  The unreachable
`!enableClusterSeparation` branch is kept for fidelity.  On the
multi-cluster path each cluster's local targets are tagged with its
cluster id and center.  `centrality.get(k) || 0` is the `getD 0`;
`particles.get(k)` is total in JS only because cluster members are keys,
which `blankParticle` stands in for. -/
noncomputable def calculateTargetPositions (cv : Canvas)
    (P : List (String × Particle)) (centrality : List (String × ℕ))
    (rndSingle : ℕ → ℕ → ℝ) (rndLocal : ℕ → ℕ → ℕ → ℝ) :
    List (String × Target) :=
  if enableClusterSeparation = false then
    calculateSingleClusterTargets cv P centrality rndSingle
  else
    let clusters := detectClusters P
    if shouldUseSingleCluster clusters = true then
      calculateSingleClusterTargets cv P centrality rndSingle
    else
      let centers := calculateClusterCenters cv clusters
      (clusters.enum.map (fun ic =>
        let center := centers.getD ic.1 (0, 0)
        let cradius := calculateClusterRadius ic.2 P
        let clusterParticles :=
          ic.2.map (fun k => (k, (List.lookup k P).getD blankParticle))
        let clusterCentrality :=
          ic.2.map (fun k => (k, (List.lookup k centrality).getD 0))
        (calculateClusterLocalTargets clusterParticles clusterCentrality center
          cradius (rndLocal ic.1)).map
          (fun kt => (kt.1,
            { kt.2 with clusterId := some ic.1
                        clusterCenter := some center })))).flatten

/-- In-place mutation of the target stored under `k`. -/
def updateT (T : List (String × Target)) (k : String) (t : Target) :
    List (String × Target) :=
  T.map (fun kv => if kv.1 = k then (kv.1, t) else kv)

/-- The ordered `i < j` index pairs of the nested repulsion loops. -/
def pairIdx (n : ℕ) : List (ℕ × ℕ) :=
  (List.range n).foldr
    (fun i acc => (((List.range n).drop (i + 1)).map (fun j => (i, j))) ++ acc) []

/-- The body of the repulsion pair loop: reading both targets live from
the map, pushing an overlapping pair apart (random-angle offset on exact
overlap; `rnd` is that `Math.random()` stream), recording that an overlap
was seen. -/
noncomputable def repulsionStep (P : List (String × Particle))
    (keys : List String) (rnd : ℕ → ℕ → ℝ)
    (st : List (String × Target) × Bool) (ij : ℕ × ℕ) :
    List (String × Target) × Bool :=
  let key1 := keys.getD ij.1 ""
  let key2 := keys.getD ij.2 ""
  match List.lookup key1 st.1, List.lookup key2 st.1 with
  | some t1, some t2 =>
    let p1 := (List.lookup key1 P).getD blankParticle
    let p2 := (List.lookup key2 P).getD blankParticle
    let dx := t1.x - t2.x
    let dy := t1.y - t2.y
    let distance := Real.sqrt (dx * dx + dy * dy)
    let differentClusters : Bool := enableClusterSeparation &&
      t1.clusterId.isSome && t2.clusterId.isSome &&
      decide (t1.clusterId ≠ t2.clusterId)
    let repulsionForce :=
      if differentClusters = true then interClusterRepulsion else repulsionStrength
    let minDistance0 := (p1.radius + p2.radius) * 2.2
    let minDistance :=
      if differentClusters = true then
        max minDistance0 (clusterSeparationDistance * 0.5)
      else minDistance0
    if distance < minDistance then
      if distance = 0 then
        let angle := rnd ij.1 ij.2 * (2 * Real.pi)
        let offset := minDistance * 0.6
        (updateT (updateT st.1 key1
          { t1 with x := t1.x + Real.cos angle * offset,
                    y := t1.y + Real.sin angle * offset }) key2
          { t2 with x := t2.x - Real.cos angle * offset,
                    y := t2.y - Real.sin angle * offset }, true)
      else
        let force := (minDistance - distance) / distance * repulsionForce * 0.1
        (updateT (updateT st.1 key1
          { t1 with x := t1.x + dx * force, y := t1.y + dy * force }) key2
          { t2 with x := t2.x - dx * force, y := t2.y - dy * force }, true)
    else st
  | _, _ => st

/-- One iteration of `applyRepulsionForces`: process every `i < j` pair in
order. -/
noncomputable def repulsionPass (P : List (String × Particle))
    (keys : List String) (rnd : ℕ → ℕ → ℝ) (T0 : List (String × Target)) :
    List (String × Target) × Bool :=
  (pairIdx keys.length).foldl (repulsionStep P keys rnd) (T0, false)

/-- The bounded iteration loop of `applyRepulsionForces` (`maxIterations`
passes, stopping early after a pass without overlaps). -/
noncomputable def applyRepulsionLoop (P : List (String × Particle))
    (keys : List String) (rnd : ℕ → ℕ → ℕ → ℝ) :
    ℕ → ℕ → List (String × Target) → List (String × Target)
  | 0, _, T => T
  | n + 1, iter, T =>
    let res := repulsionPass P keys (rnd iter) T
    if res.2 = true then applyRepulsionLoop P keys rnd n (iter + 1) res.1
    else res.1

/-- `applyRepulsionForces(particles, targets)` with `maxIterations = 5`. -/
noncomputable def applyRepulsionForces (P : List (String × Particle))
    (T : List (String × Target)) (rnd : ℕ → ℕ → ℕ → ℝ) :
    List (String × Target) :=
  applyRepulsionLoop P (P.map Prod.fst) rnd 5 0 T

/-- `enforceCanvasBounds(particles, targets)` — defined by the shuffler
but never invoked by `startShuffling` (or anywhere else in the repo). -/
noncomputable def enforceCanvasBounds (cv : Canvas)
    (P : List (String × Particle)) (T : List (String × Target)) :
    List (String × Target) :=
  T.map (fun kv =>
    match List.lookup kv.1 P with
    | none => kv
    | some p =>
      (kv.1, { kv.2 with
        x := max p.radius (min (cv.width - p.radius) kv.2.x),
        y := max p.radius (min (cv.height - p.radius) kv.2.y) }))

/-- The target map computed by `startShuffling` before animation:
centrality, target positions, then repulsion relaxation.  Note that
`startShuffling` never calls `enforceCanvasBounds`. -/
noncomputable def startShufflingTargets (cv : Canvas)
    (P : List (String × Particle)) (rndSingle : ℕ → ℕ → ℝ)
    (rndLocal : ℕ → ℕ → ℕ → ℝ) (rndRep : ℕ → ℕ → ℕ → ℝ) :
    List (String × Target) :=
  applyRepulsionForces P
    (calculateTargetPositions cv P (calculateCentrality P) rndSingle rndLocal)
    rndRep

/-! ### Animator (`animateToTargets`, shared shape of both engines)

One frame moves every particle that has a target entry by
`speed * (remaining vector)` when its distance to target exceeds `eps`
(2px for the shuffler, 1px for the sorter), and snaps it exactly onto the
target otherwise.  Particles without a target entry are untouched. -/

/-- The per-particle body of the frame loop once a target exists: ease by
`speed` along the remaining vector while farther than `eps`, else snap. -/
noncomputable def moveToward (speed eps : ℝ) (t : Target)
    (kv : String × Particle) : String × Particle :=
  if eps < Real.sqrt ((t.x - kv.2.x) * (t.x - kv.2.x) +
      (t.y - kv.2.y) * (t.y - kv.2.y)) then
    (kv.1, { kv.2 with x := kv.2.x + (t.x - kv.2.x) * speed,
                       y := kv.2.y + (t.y - kv.2.y) * speed })
  else
    (kv.1, { kv.2 with x := t.x, y := t.y })

/-- One particle's frame step: particles without a target entry are
skipped (`if (!target) continue`). -/
noncomputable def moveParticle (speed eps : ℝ) (T : List (String × Target))
    (kv : String × Particle) : String × Particle :=
  match List.lookup kv.1 T with
  | none => kv
  | some t => moveToward speed eps t kv

/-- One animation frame over the whole particle map. -/
noncomputable def animStep (speed eps : ℝ) (T : List (String × Target))
    (particles : List (String × Particle)) : List (String × Particle) :=
  particles.map (moveParticle speed eps T)

/-- The frame's `allReachedTarget` flag: every particle with a target is
within `eps` of it (particles do not interact during a frame, so this is
determined by the positions at frame start). -/
def allReached (eps : ℝ) (T : List (String × Target))
    (particles : List (String × Particle)) : Prop :=
  ∀ kv ∈ particles, ∀ t, List.lookup kv.1 T = some t →
    Real.sqrt ((t.x - kv.2.x) * (t.x - kv.2.x) +
      (t.y - kv.2.y) * (t.y - kv.2.y)) ≤ eps

theorem moveParticle_none (speed eps : ℝ) (T : List (String × Target))
    (kv : String × Particle) (h : List.lookup kv.1 T = none) :
    moveParticle speed eps T kv = kv := by
  unfold moveParticle
  rw [h]

theorem moveParticle_some (speed eps : ℝ) (T : List (String × Target))
    (kv : String × Particle) (t : Target) (h : List.lookup kv.1 T = some t) :
    moveParticle speed eps T kv = moveToward speed eps t kv := by
  unfold moveParticle
  rw [h]

theorem moveToward_fields (speed eps : ℝ) (t : Target) (kv : String × Particle) :
    (moveToward speed eps t kv).1 = kv.1 ∧
    (moveToward speed eps t kv).2.radius = kv.2.radius ∧
    (moveToward speed eps t kv).2.title = kv.2.title ∧
    (moveToward speed eps t kv).2.edges = kv.2.edges ∧
    (moveToward speed eps t kv).2.color = kv.2.color ∧
    (moveToward speed eps t kv).2.data = kv.2.data := by
  unfold moveToward
  by_cases hd : eps < Real.sqrt ((t.x - kv.2.x) * (t.x - kv.2.x) +
      (t.y - kv.2.y) * (t.y - kv.2.y))
  · rw [if_pos hd]
    exact ⟨rfl, rfl, rfl, rfl, rfl, rfl⟩
  · rw [if_neg hd]
    exact ⟨rfl, rfl, rfl, rfl, rfl, rfl⟩

/-- Claim C10: a single animator frame step mutates only the `x` and `y`
fields of particles that have an entry in the target map: a particle
whose key has no target entry is returned unchanged, and the radius,
title, edges, color and data fields of every particle are preserved by
the step (as are the keys and the order of the map). -/
theorem C10_frame_mutates_only_targeted_positions (speed eps : ℝ)
    (T : List (String × Target)) (particles : List (String × Particle)) :
    List.Forall₂ (fun kv kv2 : String × Particle =>
      kv2.1 = kv.1 ∧ kv2.2.radius = kv.2.radius ∧ kv2.2.title = kv.2.title ∧
      kv2.2.edges = kv.2.edges ∧ kv2.2.color = kv.2.color ∧
      kv2.2.data = kv.2.data ∧
      (List.lookup kv.1 T = none → kv2 = kv))
      particles (animStep speed eps T particles) := by
  unfold animStep
  induction particles with
  | nil => exact List.Forall₂.nil
  | cons kv rest ih =>
    refine List.Forall₂.cons ?_ ih
    cases hl : List.lookup kv.1 T with
    | none =>
      rw [moveParticle_none speed eps T kv hl]
      exact ⟨rfl, rfl, rfl, rfl, rfl, rfl, fun _ => rfl⟩
    | some t =>
      rw [moveParticle_some speed eps T kv t hl]
      obtain ⟨h1, h2, h3, h4, h5, h6⟩ := moveToward_fields speed eps t kv
      exact ⟨h1, h2, h3, h4, h5, h6, fun h => absurd h (by simp)⟩

/-- Distance of a particle to a target, as the frame loop computes it. -/
noncomputable def distT (t : Target) (kv : String × Particle) : ℝ :=
  Real.sqrt ((t.x - kv.2.x) * (t.x - kv.2.x) + (t.y - kv.2.y) * (t.y - kv.2.y))

theorem distT_nonneg (t : Target) (kv : String × Particle) : 0 ≤ distT t kv :=
  Real.sqrt_nonneg _

theorem moveToward_key (speed eps : ℝ) (t : Target) (kv : String × Particle) :
    (moveToward speed eps t kv).1 = kv.1 :=
  (moveToward_fields speed eps t kv).1

theorem moveParticle_key (speed eps : ℝ) (T : List (String × Target))
    (kv : String × Particle) : (moveParticle speed eps T kv).1 = kv.1 := by
  cases hl : List.lookup kv.1 T with
  | none => rw [moveParticle_none speed eps T kv hl]
  | some t => rw [moveParticle_some speed eps T kv t hl]; exact moveToward_key _ _ _ _

theorem iterate_key (speed eps : ℝ) (T : List (String × Target))
    (kv : String × Particle) (n : ℕ) :
    ((moveParticle speed eps T)^[n] kv).1 = kv.1 := by
  induction n with
  | zero => rfl
  | succ n ih =>
    rw [Function.iterate_succ_apply', moveParticle_key]
    exact ih

theorem iterate_animStep (speed eps : ℝ) (T : List (String × Target))
    (particles : List (String × Particle)) (n : ℕ) :
    (animStep speed eps T)^[n] particles =
      particles.map ((moveParticle speed eps T)^[n]) := by
  induction n with
  | zero => simp
  | succ n ih =>
    rw [Function.iterate_succ_apply', ih]
    unfold animStep
    rw [List.map_map, ← Function.iterate_succ']

theorem moveToward_far (speed eps : ℝ) (hs1 : speed ≤ 1) (t : Target)
    (kv : String × Particle) (hd : eps < distT t kv) :
    distT t (moveToward speed eps t kv) = (1 - speed) * distT t kv := by
  unfold distT at hd ⊢
  unfold moveToward
  rw [if_pos hd]
  dsimp only
  have halg : (t.x - (kv.2.x + (t.x - kv.2.x) * speed)) *
        (t.x - (kv.2.x + (t.x - kv.2.x) * speed)) +
      (t.y - (kv.2.y + (t.y - kv.2.y) * speed)) *
        (t.y - (kv.2.y + (t.y - kv.2.y) * speed)) =
      (1 - speed) ^ 2 * ((t.x - kv.2.x) * (t.x - kv.2.x) +
        (t.y - kv.2.y) * (t.y - kv.2.y)) := by ring
  rw [halg, Real.sqrt_mul (sq_nonneg _), Real.sqrt_sq (by linarith)]

theorem moveToward_near (speed eps : ℝ) (t : Target) (kv : String × Particle)
    (hd : ¬ eps < distT t kv) :
    (moveToward speed eps t kv).2.x = t.x ∧
      (moveToward speed eps t kv).2.y = t.y := by
  unfold distT at hd
  unfold moveToward
  rw [if_neg hd]
  exact ⟨rfl, rfl⟩

theorem moveToward_at_target (speed eps : ℝ) (heps : 0 ≤ eps) (t : Target)
    (kv : String × Particle) (hx : kv.2.x = t.x) (hy : kv.2.y = t.y) :
    (moveToward speed eps t kv).2.x = t.x ∧
      (moveToward speed eps t kv).2.y = t.y := by
  refine moveToward_near speed eps t kv ?_
  unfold distT
  rw [hx, hy]
  have hz : (t.x - t.x) * (t.x - t.x) + (t.y - t.y) * (t.y - t.y) = 0 := by ring
  rw [hz, Real.sqrt_zero]
  exact not_lt.2 heps

/-- Per-particle convergence of the frame loop: with `0 < speed < 1` and
`0 < eps`, after finitely many steps a targeted particle sits exactly on
its target and stays there. -/
theorem particle_reaches (speed eps : ℝ) (hs0 : 0 < speed) (hs1 : speed < 1)
    (heps : 0 < eps) (T : List (String × Target)) (kv : String × Particle) :
    ∃ n : ℕ, ∀ m, n ≤ m → ∀ t, List.lookup kv.1 T = some t →
      ((moveParticle speed eps T)^[m] kv).2.x = t.x ∧
        ((moveParticle speed eps T)^[m] kv).2.y = t.y := by
  cases hl : List.lookup kv.1 T with
  | none =>
    exact ⟨0, fun m _ t ht => Option.noConfusion ht⟩
  | some t =>
    -- each iterate steps by moveToward with the same target
    have hstep : ∀ p : String × Particle, p.1 = kv.1 →
        moveParticle speed eps T p = moveToward speed eps t p := by
      intro p hp
      refine moveParticle_some speed eps T p t ?_
      rw [hp, hl]
    have hq : ∀ m : ℕ, (moveParticle speed eps T)^[m + 1] kv =
        moveToward speed eps t ((moveParticle speed eps T)^[m] kv) := by
      intro m
      rw [Function.iterate_succ_apply']
      exact hstep _ (iterate_key speed eps T kv m)
    -- once on target, stay there
    have hstay : ∀ n, ((moveParticle speed eps T)^[n] kv).2.x = t.x ∧
        ((moveParticle speed eps T)^[n] kv).2.y = t.y →
        ∀ m, n ≤ m → ((moveParticle speed eps T)^[m] kv).2.x = t.x ∧
          ((moveParticle speed eps T)^[m] kv).2.y = t.y := by
      intro n hn m hm
      obtain ⟨k, rfl⟩ := Nat.exists_eq_add_of_le hm
      clear hm
      induction k with
      | zero => exact hn
      | succ k ih =>
        have : n + (k + 1) = (n + k) + 1 := by omega
        rw [this, hq]
        exact moveToward_at_target speed eps (le_of_lt heps) t _ ih.1 ih.2
    -- geometric decrease until within eps
    have hinv : ∀ m : ℕ,
        (((moveParticle speed eps T)^[m] kv).2.x = t.x ∧
          ((moveParticle speed eps T)^[m] kv).2.y = t.y) ∨
        distT t ((moveParticle speed eps T)^[m] kv) ≤
          (1 - speed) ^ m * distT t kv := by
      intro m
      induction m with
      | zero => right; simp
      | succ m ih =>
        rcases ih with ih | ih
        · left
          rw [hq]
          exact moveToward_at_target speed eps (le_of_lt heps) t _ ih.1 ih.2
        · by_cases hd : eps < distT t ((moveParticle speed eps T)^[m] kv)
          · right
            rw [hq, moveToward_far speed eps (le_of_lt hs1) t _ hd, pow_succ]
            calc (1 - speed) * distT t ((moveParticle speed eps T)^[m] kv)
                ≤ (1 - speed) * ((1 - speed) ^ m * distT t kv) := by
                  refine mul_le_mul_of_nonneg_left ih (by linarith)
              _ = (1 - speed) ^ m * (1 - speed) * distT t kv := by ring
          · left
            rw [hq]
            exact moveToward_near speed eps t _ hd
    -- choose a step where the distance has dropped below eps
    by_cases h0 : eps < distT t kv
    · have hd0 : 0 < distT t kv := lt_trans heps h0
      obtain ⟨m, hm⟩ := exists_pow_lt_of_lt_one
        (div_pos heps hd0) (by linarith : 1 - speed < 1)
      have hsmall : (1 - speed) ^ m * distT t kv < eps := by
        rw [← lt_div_iff₀ hd0]
        exact hm
      rcases hinv m with hat | hdist
      · refine ⟨m, fun m2 hm2 t2 ht2 => ?_⟩
        have ht2e : t2 = t := (Option.some_inj.1 ht2).symm
        subst ht2e
        exact hstay m hat m2 hm2
      · have hat : ((moveParticle speed eps T)^[m + 1] kv).2.x = t.x ∧
            ((moveParticle speed eps T)^[m + 1] kv).2.y = t.y := by
          rw [hq]
          exact moveToward_near speed eps t _ (not_lt.2 (le_of_lt (lt_of_le_of_lt hdist hsmall)))
        refine ⟨m + 1, fun m2 hm2 t2 ht2 => ?_⟩
        have ht2e : t2 = t := (Option.some_inj.1 ht2).symm
        subst ht2e
        exact hstay (m + 1) hat m2 hm2
    · have hat : ((moveParticle speed eps T)^[1] kv).2.x = t.x ∧
          ((moveParticle speed eps T)^[1] kv).2.y = t.y := by
        have h01 : (0 : ℕ) + 1 = 1 := rfl
        rw [← h01, hq]
        exact moveToward_near speed eps t _ (by simpa using h0)
      refine ⟨1, fun m2 hm2 t2 ht2 => ?_⟩
      have ht2e : t2 = t := (Option.some_inj.1 ht2).symm
      subst ht2e
      exact hstay 1 hat m2 hm2

/-- Claim C7: for every finite target map and every animation speed
strictly between 0 and 1 (and positive snap epsilon), repeated
application of the animator's frame step terminates: after finitely many
frames every node that has a target sits exactly at its target, and the
frame's `allReachedTarget` check then holds, so the run resolves — no
infinite oscillation.  Each step moves a not-yet-close node by
`speed * remaining` and snaps it exactly onto the target once within
`eps`. -/
theorem C7_animator_terminates (speed eps : ℝ) (T : List (String × Target))
    (particles : List (String × Particle))
    (hs0 : 0 < speed) (hs1 : speed < 1) (heps : 0 < eps) :
    ∃ N, (∀ kv ∈ (animStep speed eps T)^[N] particles, ∀ t,
        List.lookup kv.1 T = some t → kv.2.x = t.x ∧ kv.2.y = t.y) ∧
      allReached eps T ((animStep speed eps T)^[N] particles) := by
  have huni : ∀ l : List (String × Particle), ∃ N, ∀ kv ∈ l, ∀ m, N ≤ m → ∀ t,
      List.lookup kv.1 T = some t →
      ((moveParticle speed eps T)^[m] kv).2.x = t.x ∧
        ((moveParticle speed eps T)^[m] kv).2.y = t.y := by
    intro l
    induction l with
    | nil => exact ⟨0, by simp⟩
    | cons kv rest ih =>
      obtain ⟨N1, h1⟩ := particle_reaches speed eps hs0 hs1 heps T kv
      obtain ⟨N2, h2⟩ := ih
      refine ⟨max N1 N2, ?_⟩
      intro kv2 hkv2 m hm t ht
      rcases List.mem_cons.1 hkv2 with rfl | hkv2
      · exact h1 m (le_trans (le_max_left _ _) hm) t ht
      · exact h2 kv2 hkv2 m (le_trans (le_max_right _ _) hm) t ht
  obtain ⟨N, hN⟩ := huni particles
  refine ⟨N, ?_, ?_⟩
  · intro kv2 hkv2 t ht
    rw [iterate_animStep] at hkv2
    obtain ⟨kv, hkv, rfl⟩ := List.mem_map.1 hkv2
    rw [iterate_key speed eps T kv N] at ht
    exact hN kv hkv N (le_refl N) t ht
  · unfold allReached
    intro kv2 hkv2 t ht
    rw [iterate_animStep] at hkv2
    obtain ⟨kv, hkv, rfl⟩ := List.mem_map.1 hkv2
    rw [iterate_key speed eps T kv N] at ht
    obtain ⟨hx, hy⟩ := hN kv hkv N (le_refl N) t ht
    rw [hx, hy]
    have hz : (t.x - t.x) * (t.x - t.x) + (t.y - t.y) * (t.y - t.y) = 0 := by ring
    rw [hz, Real.sqrt_zero]
    exact le_of_lt heps

/-- A concrete target used by the animator witnesses. -/
def w7T : Target := { x := 0, y := 0, radius := 0, clusterId := none, clusterCenter := none }

/-- Witness for C7 at the shuffler's configuration (`speed = 0.15`,
`eps = 2`) on a one-particle map with a target. -/
theorem C7_animator_terminates_witness :
    (0 < animationSpeed ∧ animationSpeed < 1 ∧ (0 : ℝ) < 2) ∧
    ∃ N, (∀ kv ∈ (animStep animationSpeed 2 [("a", w7T)])^[N]
        [("a", { blankParticle with x := 300, y := 400 })], ∀ t,
        List.lookup kv.1 [("a", w7T)] = some t → kv.2.x = t.x ∧ kv.2.y = t.y) ∧
      allReached 2 [("a", w7T)] ((animStep animationSpeed 2 [("a", w7T)])^[N]
        [("a", { blankParticle with x := 300, y := 400 })]) :=
  ⟨⟨by unfold animationSpeed; norm_num, by unfold animationSpeed; norm_num,
      by norm_num⟩,
    C7_animator_terminates animationSpeed 2 [("a", w7T)]
      [("a", { blankParticle with x := 300, y := 400 })]
      (by unfold animationSpeed; norm_num)
      (by unfold animationSpeed; norm_num) (by norm_num)⟩

/-! ### Run state machines (`startShuffling`/`stopShuffling`,
`startSorting`/`stopSorting`)

A run is the in-flight `animateToTargets` promise together with the
engine's flags.  `status` is `none` while unresolved; the shuffler
resolves `some false` (interrupted) or `some true` (completed); `persisted`
records that the per-node `serverUpdateCallback` invocations for this run
have been issued, which `startShuffling` does only when the animation
completed and `startSorting` does unconditionally after its animation. -/

/-- The sorter's constructor `animationSpeed = 0.05`. -/
def sortAnimationSpeed : ℝ := 0.05

structure ShuffleRun where
  particles : List (String × Particle)
  targets : List (String × Target)
  shouldStop : Bool
  isAnimating : Bool
  status : Option Bool
  persisted : Bool

/-- One frame of the shuffler's `animateToTargets` loop: the stop check
first (`this.shouldStop || !this.isAnimating` resolves the run as
interrupted, leaving positions untouched), otherwise a movement frame,
resolving as completed — and then issuing the persistence callbacks — when
every targeted node was already within the snap distance. -/
noncomputable def shuffleFrame (run : ShuffleRun) : ShuffleRun :=
  match run.status with
  | some _ => run
  | none =>
    if run.shouldStop = true ∨ run.isAnimating = false then
      { run with status := some false }
    else
      haveI := Classical.propDecidable (allReached 2 run.targets run.particles)
      if allReached 2 run.targets run.particles then
        { run with particles := animStep animationSpeed 2 run.targets run.particles,
                   status := some true, persisted := true }
      else
        { run with particles := animStep animationSpeed 2 run.targets run.particles }

/-- `stopShuffling()`. -/
def stopShuffling (run : ShuffleRun) : ShuffleRun :=
  { run with shouldStop := true, isAnimating := false }

structure SortRun where
  particles : List (String × Particle)
  targets : List (String × Target)
  isAnimating : Bool
  status : Option Unit
  persisted : Bool

/-- One frame of the sorter's `animateToTargets` loop.  Unlike the
shuffler's, it checks no stop flag at all: it only moves particles and
resolves once all targeted nodes are within the snap distance, after
which `startSorting` unconditionally issues the persistence callbacks. -/
noncomputable def sortFrame (run : SortRun) : SortRun :=
  match run.status with
  | some _ => run
  | none =>
    haveI := Classical.propDecidable (allReached 1 run.targets run.particles)
    if allReached 1 run.targets run.particles then
      { run with particles := animStep sortAnimationSpeed 1 run.targets run.particles,
                 status := some (), persisted := true }
    else
      { run with particles := animStep sortAnimationSpeed 1 run.targets run.particles }

/-- `stopSorting()`: it only clears the running flag. -/
def stopSortingRun (run : SortRun) : SortRun :=
  { run with isAnimating := false }

theorem shuffleFrame_resolved (run : ShuffleRun) (b : Bool)
    (h : run.status = some b) : shuffleFrame run = run := by
  unfold shuffleFrame
  rw [h]

/-- Claim C8 (amended, shuffler part): if `stop()` is called while a
shuffle run is animating, the very next frame step resolves the run as
interrupted, the nodes keep exactly their current positions, and the
persistence callback is never issued for that run at any later frame. -/
theorem C8_stop_interrupts_shuffle (run : ShuffleRun) (hrun : run.status = none) :
    (shuffleFrame (stopShuffling run)).status = some false ∧
    (shuffleFrame (stopShuffling run)).particles = run.particles ∧
    ∀ n : ℕ,
      (shuffleFrame^[n] (shuffleFrame (stopShuffling run))).persisted =
        run.persisted ∧
      (shuffleFrame^[n] (shuffleFrame (stopShuffling run))).status = some false := by
  have hs : (stopShuffling run).status = none := hrun
  have hc : (stopShuffling run).shouldStop = true ∨
      (stopShuffling run).isAnimating = false := Or.inl rfl
  have hframe : shuffleFrame (stopShuffling run) =
      { stopShuffling run with status := some false } := by
    unfold shuffleFrame
    rw [hs]
    rw [if_pos hc]
  have h1 : (shuffleFrame (stopShuffling run)).status = some false := by
    rw [hframe]
  have h2 : (shuffleFrame (stopShuffling run)).particles = run.particles := by
    rw [hframe]
    rfl
  have h3 : (shuffleFrame (stopShuffling run)).persisted = run.persisted := by
    rw [hframe]
    rfl
  refine ⟨h1, h2, ?_⟩
  intro n
  induction n with
  | zero => exact ⟨h3, h1⟩
  | succ n ih =>
    rw [Function.iterate_succ_apply', shuffleFrame_resolved _ false ih.2]
    exact ih

/-- A concrete mid-animation shuffle run for the C8 witness. -/
def w8run : ShuffleRun :=
  { particles := [("a", blankParticle)], targets := [("a", w7T)],
    shouldStop := false, isAnimating := true, status := none, persisted := false }

/-- Witness for the amended C8 at a concrete run. -/
theorem C8_stop_interrupts_shuffle_witness :
    w8run.status = none ∧
    ((shuffleFrame (stopShuffling w8run)).status = some false ∧
      (shuffleFrame (stopShuffling w8run)).particles = w8run.particles ∧
      ∀ n : ℕ,
        (shuffleFrame^[n] (shuffleFrame (stopShuffling w8run))).persisted =
          w8run.persisted ∧
        (shuffleFrame^[n] (shuffleFrame (stopShuffling w8run))).status =
          some false) :=
  ⟨rfl, C8_stop_interrupts_shuffle w8run rfl⟩

/-- A sorter run whose single particle is already at its target, with
`stopSorting` already invoked (`isAnimating = false`), unresolved. -/
def w8sort : SortRun :=
  { particles := [("a", blankParticle)], targets := [("a", w7T)],
    isAnimating := false, status := none, persisted := false }

/-- Claim C8 counterexample (sorter part): the sorter's animation loop
never consults the stop flag, so after `stopSorting()` the in-flight run
still resolves as completed at the next frame and the persistence
callbacks are still issued — contradicting the claim that a stopped run
resolves as interrupted with no persistence callback. -/
theorem C8_cex_sorter_ignores_stop :
    w8sort.isAnimating = false ∧
    (sortFrame w8sort).status = some () ∧
    (sortFrame w8sort).persisted = true := by
  have hall : allReached 1 w8sort.targets w8sort.particles := by
    intro kv hkv t ht
    have hkv2 : kv = ("a", blankParticle) := List.mem_singleton.1 hkv
    subst hkv2
    have ht2 : t = w7T := by
      rw [show (List.lookup "a" w8sort.targets) = some w7T from rfl] at ht
      exact (Option.some_inj.1 ht).symm
    subst ht2
    have hz : (w7T.x - blankParticle.x) * (w7T.x - blankParticle.x) +
        (w7T.y - blankParticle.y) * (w7T.y - blankParticle.y) = 0 := by
      show ((0 : ℝ) - 0) * (0 - 0) + (0 - 0) * (0 - 0) = 0
      ring
    rw [hz, Real.sqrt_zero]
    norm_num
  have hst : w8sort.status = none := rfl
  refine ⟨rfl, ?_, ?_⟩
  · unfold sortFrame
    rw [hst]
    rw [if_pos hall]
  · unfold sortFrame
    rw [hst]
    rw [if_pos hall]

/-- The outcome `startSorting` reports: logged no-op or a full run. -/
inductive SortStart where
  | noOp : SortStart
  | ran : SortStart
  deriving DecidableEq

/-- The converged positions after the sort animation: every targeted
particle exactly at its target (the convergence point established by the
animator-termination theorem). -/
noncomputable def snapToTargets (particles : List (String × Particle))
    (pos : List (String × ℝ × ℝ)) : List (String × Particle) :=
  particles.map (fun kv =>
    match List.lookup kv.1 pos with
    | some xy => (kv.1, { kv.2 with x := xy.1, y := xy.2 })
    | none => kv)

/-- `startSorting(graphData, ...)`: while a run is animating it logs
"Sorting already in progress" and returns at once — before
`prepareGraphData` is invoked and before any position is computed or
mutated; otherwise it prepares the graph, computes grid positions,
animates to convergence and persists. -/
noncomputable def startSorting (cv : Canvas) (isAnimating : Bool)
    (g : GraphData) : List (String × Particle) × SortStart :=
  if isAnimating = true then (g.nodes, SortStart.noOp)
  else
    (snapToTargets (prepareGraphData g)
      (calculateGridPositions (prepareGraphData g) cv), SortStart.ran)

/-- Claim C9: calling `startSorting` while a sort run is already
animating is reported to the caller as a logged no-op rather than
throwing: the call returns immediately with the outcome `noOp`, the node
map is returned exactly as it was passed in (no position computed or
mutated), and the call is total (it cannot throw). -/
theorem C9_startSorting_noop_while_animating (cv : Canvas) (g : GraphData) :
    startSorting cv true g = (g.nodes, SortStart.noOp) := by
  unfold startSorting
  rw [if_pos rfl]

/-- Two connected nodes of equal degree — every node of the map has the
same centrality (`max == min`). -/
def c6P : List (String × Particle) :=
  [("a", { blankParticle with edges := [⟨"b", ""⟩] }),
   ("b", { blankParticle with edges := [⟨"a", ""⟩] })]

/-- Claim C6 (evaluating the code at the failing input): when every node
has identical degree, the computed normalized centrality is `0`, not the
claimed `0.5` — the `centralityRange === 0 ? 0.5` guard is dead because
`maxCentrality - minCentrality || 1` has already turned the zero range
into `1`.  Concretely, on an all-equal-degree map over an 800×600 canvas
the whole tie group is assigned the maximum ring radius `260`
(`minRadius + 10 + (maxRadius - minRadius - 10)`), not the halfway ring
`185` that normalized centrality `0.5` would give. -/
theorem C6_tie_normalization_yields_zero :
    (∀ c : ℝ, normalizeCentrality c c c = 0) ∧
    (∃ t, List.lookup "a" (calculateSingleClusterTargets ⟨800, 600⟩ c6P
        (calculateCentrality c6P) (fun i j => 0)) = some t ∧
      t.radius = 260 ∧ t.radius ≠ 185) := by
  constructor
  · intro c
    simp [normalizeCentrality, orOne]
  · refine ⟨_, rfl, ?_, ?_⟩
    · norm_num [jsMax, jsMin, radiusOr20, normalizeCentrality, orOne, minRadius,
        blankParticle, calculateCentrality, c6P, min_def, max_def]
    · norm_num [jsMax, jsMin, radiusOr20, normalizeCentrality, orOne, minRadius,
        blankParticle, calculateCentrality, c6P, min_def, max_def]


/-! ### A concrete three-node run of the shuffle pipeline

`c4P` has one hub `A` (degree 2) linked to `B` and `C` (degree 1 each) on
a narrow 240×900 canvas; `B` is visually huge (radius 90).  All jitter
streams are the constant-zero stream.  The pipeline places the three
nodes on their centrality rings and the repulsion pass then throws `A`
and `B` horizontally far apart — and far outside both the rings and the
canvas. -/

def c4P : List (String × Particle) :=
  [("A", { blankParticle with radius := 5, edges := [⟨"B", ""⟩, ⟨"C", ""⟩] }),
   ("B", { blankParticle with radius := 90, edges := [⟨"A", ""⟩] }),
   ("C", { blankParticle with radius := 5, edges := [⟨"A", ""⟩] })]

/-- Shorthand for an untagged target. -/
def cT (x y r : ℝ) : Target :=
  { x := x, y := y, radius := r, clusterId := none, clusterCenter := none }

/-- The ring targets `calculateTargetPositions` assigns on `c4P`. -/
def c4T0 : List (String × Target) :=
  [("A", cT 230 450 110), ("B", cT 150 450 150), ("C", cT 5 450 150)]

/-- The same targets after repulsion: `A` and `B` pushed 645px apart. -/
def c4T1 : List (String × Target) :=
  [("A", cT 875 450 110), ("B", cT (-495) 450 150), ("C", cT 5 450 150)]

theorem c4_positions :
    calculateTargetPositions ⟨240, 900⟩ c4P (calculateCentrality c4P)
      (fun i j => 0) (fun c i j => 0) = c4T0 := by
  have hdet : detectClusters c4P = [["A", "B", "C"]] := by decide
  have hsu : shouldUseSingleCluster [["A", "B", "C"]] = true := by decide
  have hlev : centralityLevels (calculateCentrality c4P) = [2, 1] := by decide
  have hg2 : centralityGroup (calculateCentrality c4P) 2 = ["A"] := by decide
  have hg1 : centralityGroup (calculateCentrality c4P) 1 = ["B", "C"] := by decide
  have hpi2 : (2 : ℝ) * Real.pi / 2 = Real.pi := by ring
  have hrA : radiusOfD c4P "A" = 5 := rfl
  have hrB : radiusOfD c4P "B" = 90 := rfl
  have hrC : radiusOfD c4P "C" = 5 := rfl
  have h5 : radiusOr20 (5 : ℝ) = 5 := by norm_num [radiusOr20]
  have h90 : radiusOr20 (90 : ℝ) = 90 := by norm_num [radiusOr20]
  have hmaxR : jsMax (c4P.map (fun kv => radiusOr20 kv.2.radius)) = 90 := by
    norm_num [c4P, jsMax, radiusOr20, blankParticle, max_def]
  have hminC : jsMin ((calculateCentrality c4P).map (fun kv => (kv.2 : ℝ))) = 1 := by
    norm_num [calculateCentrality, c4P, jsMin, blankParticle, min_def]
  have hmaxC : jsMax ((calculateCentrality c4P).map (fun kv => (kv.2 : ℝ))) = 2 := by
    norm_num [calculateCentrality, c4P, jsMax, blankParticle, max_def]
  unfold calculateTargetPositions
  rw [hdet]
  norm_num [enableClusterSeparation, hsu, hlev, hg2, hg1,
    calculateSingleClusterTargets, List.enum, List.enumFrom,
    normalizeCentrality, orOne, minRadius,
    min_def, max_def, hpi2, Real.cos_zero, Real.sin_zero,
    Real.cos_pi, Real.sin_pi, cT, c4T0, hrA, hrB, hrC, h5, h90, hmaxR, hminC, hmaxC]

theorem c4_step01 (r : ℕ → ℕ → ℝ) (b : Bool) :
    repulsionStep c4P ["A", "B", "C"] r (c4T0, b) (0, 1) = (c4T1, true) := by
  have hsq : Real.sqrt (6400 : ℝ) = 80 := by
    rw [show (6400 : ℝ) = 80 ^ 2 by norm_num]
    exact Real.sqrt_sq (by norm_num)
  have hlA : List.lookup "A" c4T0 = some (cT 230 450 110) := rfl
  have hlB : List.lookup "B" c4T0 = some (cT 150 450 150) := rfl
  have hpAr : ((List.lookup "A" c4P).getD blankParticle).radius = 5 := rfl
  have hpBr : ((List.lookup "B" c4P).getD blankParticle).radius = 90 := rfl
  have hupd : ∀ tA tB : Target, updateT (updateT c4T0 "A" tA) "B" tB =
      [("A", tA), ("B", tB), ("C", cT 5 450 150)] := by
    intro tA tB
    simp [updateT, c4T0]
  norm_num [repulsionStep, hlA, hlB, hpAr, hpBr, enableClusterSeparation,
    repulsionStrength, cT, hsq, List.getD]
  rw [hupd]
  norm_num [c4T1, cT]

theorem c4_step02 (r : ℕ → ℕ → ℝ) (b : Bool) :
    repulsionStep c4P ["A", "B", "C"] r (c4T1, b) (0, 2) = (c4T1, b) := by
  have hsq : Real.sqrt (756900 : ℝ) = 870 := by
    rw [show (756900 : ℝ) = 870 ^ 2 by norm_num]
    exact Real.sqrt_sq (by norm_num)
  have hlA : List.lookup "A" c4T1 = some (cT 875 450 110) := rfl
  have hlC : List.lookup "C" c4T1 = some (cT 5 450 150) := rfl
  have hpAr : ((List.lookup "A" c4P).getD blankParticle).radius = 5 := rfl
  have hpCr : ((List.lookup "C" c4P).getD blankParticle).radius = 5 := rfl
  norm_num [repulsionStep, hlA, hlC, hpAr, hpCr, enableClusterSeparation,
    repulsionStrength, cT, hsq, List.getD]

theorem c4_step12 (r : ℕ → ℕ → ℝ) (b : Bool) :
    repulsionStep c4P ["A", "B", "C"] r (c4T1, b) (1, 2) = (c4T1, b) := by
  have hsq : Real.sqrt (250000 : ℝ) = 500 := by
    rw [show (250000 : ℝ) = 500 ^ 2 by norm_num]
    exact Real.sqrt_sq (by norm_num)
  have hlB : List.lookup "B" c4T1 = some (cT (-495) 450 150) := rfl
  have hlC : List.lookup "C" c4T1 = some (cT 5 450 150) := rfl
  have hpBr : ((List.lookup "B" c4P).getD blankParticle).radius = 90 := rfl
  have hpCr : ((List.lookup "C" c4P).getD blankParticle).radius = 5 := rfl
  norm_num [repulsionStep, hlB, hlC, hpBr, hpCr, enableClusterSeparation,
    repulsionStrength, cT, hsq, List.getD]

theorem c4_step01b (r : ℕ → ℕ → ℝ) (b : Bool) :
    repulsionStep c4P ["A", "B", "C"] r (c4T1, b) (0, 1) = (c4T1, b) := by
  have hsq : Real.sqrt (1876900 : ℝ) = 1370 := by
    rw [show (1876900 : ℝ) = 1370 ^ 2 by norm_num]
    exact Real.sqrt_sq (by norm_num)
  have hlA : List.lookup "A" c4T1 = some (cT 875 450 110) := rfl
  have hlB : List.lookup "B" c4T1 = some (cT (-495) 450 150) := rfl
  have hpAr : ((List.lookup "A" c4P).getD blankParticle).radius = 5 := rfl
  have hpBr : ((List.lookup "B" c4P).getD blankParticle).radius = 90 := rfl
  norm_num [repulsionStep, hlA, hlB, hpAr, hpBr, enableClusterSeparation,
    repulsionStrength, cT, hsq, List.getD]

theorem c4_pass1 (r : ℕ → ℕ → ℝ) :
    repulsionPass c4P ["A", "B", "C"] r c4T0 = (c4T1, true) := by
  have hpidx : pairIdx (["A", "B", "C"] : List String).length =
      [(0, 1), (0, 2), (1, 2)] := by decide
  unfold repulsionPass
  rw [hpidx, List.foldl_cons, c4_step01 r false, List.foldl_cons,
    c4_step02 r true, List.foldl_cons, c4_step12 r true, List.foldl_nil]

theorem c4_pass2 (r : ℕ → ℕ → ℝ) :
    repulsionPass c4P ["A", "B", "C"] r c4T1 = (c4T1, false) := by
  have hpidx : pairIdx (["A", "B", "C"] : List String).length =
      [(0, 1), (0, 2), (1, 2)] := by decide
  unfold repulsionPass
  rw [hpidx, List.foldl_cons, c4_step01b r false, List.foldl_cons,
    c4_step02 r false, List.foldl_cons, c4_step12 r false, List.foldl_nil]

theorem c4_relax (rnd : ℕ → ℕ → ℕ → ℝ) :
    applyRepulsionForces c4P c4T0 rnd = c4T1 := by
  have hkeys : c4P.map Prod.fst = ["A", "B", "C"] := rfl
  have hsucc : ∀ (n iter : ℕ) (T : List (String × Target)),
      applyRepulsionLoop c4P ["A", "B", "C"] rnd (n + 1) iter T =
        if (repulsionPass c4P ["A", "B", "C"] (rnd iter) T).2 = true then
          applyRepulsionLoop c4P ["A", "B", "C"] rnd n (iter + 1)
            (repulsionPass c4P ["A", "B", "C"] (rnd iter) T).1
        else (repulsionPass c4P ["A", "B", "C"] (rnd iter) T).1 :=
    fun n iter T => rfl
  unfold applyRepulsionForces
  rw [hkeys, hsucc, c4_pass1 (rnd 0)]
  simp only [if_true, eq_self_iff_true]
  rw [hsucc, c4_pass2 (rnd 1)]
  simp

theorem c4_final (rndRep : ℕ → ℕ → ℕ → ℝ) :
    startShufflingTargets ⟨240, 900⟩ c4P (fun i j => 0) (fun c i j => 0) rndRep =
      c4T1 := by
  unfold startShufflingTargets
  rw [c4_positions]
  exact c4_relax rndRep


/-- Claim C4 (counterexample): the centrality-ring monotonicity does not
survive the full shuffle layout.  On `c4P` (single cluster, cluster
center = canvas center `(120, 450)`), `A` has degree 2 and `C` degree 1,
yet after `startShuffling`'s repulsion pass `A` ends up 755px from the
cluster center while `C` sits 115px from it. -/
theorem C4_cex_repulsion_breaks_monotonicity :
    detectClusters c4P = [["A", "B", "C"]] ∧
    connCount c4P "C" < connCount c4P "A" ∧
    ∃ tA tC : Target,
      List.lookup "A" (startShufflingTargets ⟨240, 900⟩ c4P
        (fun i j => 0) (fun c i j => 0) (fun it i j => 0)) = some tA ∧
      List.lookup "C" (startShufflingTargets ⟨240, 900⟩ c4P
        (fun i j => 0) (fun c i j => 0) (fun it i j => 0)) = some tC ∧
      Real.sqrt ((tC.x - 240 / 2) ^ 2 + (tC.y - 900 / 2) ^ 2) <
        Real.sqrt ((tA.x - 240 / 2) ^ 2 + (tA.y - 900 / 2) ^ 2) := by
  refine ⟨by decide, by decide, cT 875 450 110, cT 5 450 150, ?_, ?_, ?_⟩
  · rw [c4_final]
    rfl
  · rw [c4_final]
    rfl
  · have hC : Real.sqrt (((cT 5 450 150).x - 240 / 2) ^ 2 +
        ((cT 5 450 150).y - 900 / 2) ^ 2) = 115 := by
      rw [show (((cT 5 450 150).x - 240 / 2) ^ 2 +
        ((cT 5 450 150).y - 900 / 2) ^ 2 : ℝ) = 115 ^ 2 by norm_num [cT]]
      exact Real.sqrt_sq (by norm_num)
    have hA : Real.sqrt (((cT 875 450 110).x - 240 / 2) ^ 2 +
        ((cT 875 450 110).y - 900 / 2) ^ 2) = 755 := by
      rw [show (((cT 875 450 110).x - 240 / 2) ^ 2 +
        ((cT 875 450 110).y - 900 / 2) ^ 2 : ℝ) = 755 ^ 2 by norm_num [cT]]
      exact Real.sqrt_sq (by norm_num)
    rw [hA, hC]
    norm_num


theorem foldl_min_le_init : ∀ (xs : List ℝ) (a : ℝ), xs.foldl min a ≤ a
  | [], a => le_refl a
  | x :: xs, a => le_trans (foldl_min_le_init xs (min a x)) (min_le_left a x)

theorem foldl_min_le_mem : ∀ (xs : List ℝ) (x : ℝ), x ∈ xs → ∀ a : ℝ,
    xs.foldl min a ≤ x
  | y :: ys, x, h, a => by
    rcases List.mem_cons.1 h with h1 | h2
    · subst h1
      exact le_trans (foldl_min_le_init ys (min a x)) (min_le_right a x)
    · exact foldl_min_le_mem ys x h2 (min a y)

theorem init_le_foldl_max : ∀ (xs : List ℝ) (a : ℝ), a ≤ xs.foldl max a
  | [], a => le_refl a
  | x :: xs, a => le_trans (le_max_left a x) (init_le_foldl_max xs (max a x))

theorem mem_le_foldl_max : ∀ (xs : List ℝ) (x : ℝ), x ∈ xs → ∀ a : ℝ,
    x ≤ xs.foldl max a
  | y :: ys, x, h, a => by
    rcases List.mem_cons.1 h with h1 | h2
    · subst h1
      exact le_trans (le_max_right a x) (init_le_foldl_max ys (max a x))
    · exact mem_le_foldl_max ys x h2 (max a y)

/-- `Math.min(...)` bounds every element of a non-empty list from below. -/
theorem jsMin_le_mem {l : List ℝ} {x : ℝ} (h : x ∈ l) : jsMin l ≤ x := by
  cases l with
  | nil => exact absurd h (List.not_mem_nil x)
  | cons y ys =>
    rcases List.mem_cons.1 h with h1 | h2
    · subst h1
      exact foldl_min_le_init ys x
    · exact foldl_min_le_mem ys x h2 y

/-- `Math.max(...)` bounds every element of a non-empty list from above. -/
theorem mem_le_jsMax {l : List ℝ} {x : ℝ} (h : x ∈ l) : x ≤ jsMax l := by
  cases l with
  | nil => exact absurd h (List.not_mem_nil x)
  | cons y ys =>
    rcases List.mem_cons.1 h with h1 | h2
    · subst h1
      exact init_le_foldl_max ys x
    · exact mem_le_foldl_max ys x h2 y

/-- In an association list with distinct keys, a key determines its
value. -/
theorem assoc_nodup_eq {α : Type} : ∀ {cc : List (String × α)},
    (cc.map Prod.fst).Nodup → ∀ {k : String} {a b : α},
    (k, a) ∈ cc → (k, b) ∈ cc → a = b
  | [], _, _, _, _, ha, _ => absurd ha (List.not_mem_nil _)
  | kv :: rest, hnd, k, a, b, ha, hb => by
    rw [List.map_cons] at hnd
    have hnd2 := List.nodup_cons.1 hnd
    rcases List.mem_cons.1 ha with h1 | h1 <;> rcases List.mem_cons.1 hb with h2 | h2
    · rw [← h2] at h1
      exact congrArg Prod.snd h1
    · exfalso
      subst h1
      exact hnd2.1 (List.mem_map.2 ⟨(k, b), h2, rfl⟩)
    · exfalso
      subst h2
      exact hnd2.1 (List.mem_map.2 ⟨(k, a), h1, rfl⟩)
    · exact assoc_nodup_eq hnd2.2 h1 h2

/-- Membership in a centrality bucket recovers the centrality entry. -/
theorem mem_group_mem {cc : List (String × ℕ)} {k : String} {d : ℕ}
    (h : k ∈ centralityGroup cc d) : (k, d) ∈ cc := by
  unfold centralityGroup at h
  obtain ⟨kv, hkv, hfst⟩ := List.mem_map.1 h
  have hf := List.mem_filter.1 hkv
  have hsnd : kv.2 = d := by simpa using hf.2
  have : kv = (k, d) := Prod.ext hfst hsnd
  rw [← this]
  exact hf.1


/-- The ring radius `calculateClusterLocalTargets` assigns to centrality
level `d` (the zeta-expanded `localRadius` of the source). -/
noncomputable def localRingRadius (cc : List (String × ℕ)) (cR : ℝ) (d : ℕ) : ℝ :=
  min 30 (cR * 0.2) + (cR - clusterBoundaryPadding - min 30 (cR * 0.2)) *
    (1 - normalizeCentrality (d : ℝ) (jsMin (cc.map (fun kv => (kv.2 : ℝ))))
      (jsMax (cc.map (fun kv => (kv.2 : ℝ)))))

/-- Every local target lies on the ring of its node's centrality level:
its coordinates are the cluster center plus a `localRingRadius`-scaled
unit vector. -/
theorem localTargets_mem {cps : List (String × Particle)}
    {cc : List (String × ℕ)} {center : ℝ × ℝ} {cR : ℝ} {rnd : ℕ → ℕ → ℝ}
    {k : String} {t : Target}
    (h : (k, t) ∈ calculateClusterLocalTargets cps cc center cR rnd) :
    ∃ d : ℕ, (k, d) ∈ cc ∧ ∃ a : ℝ,
      t.x = center.1 + Real.cos a * localRingRadius cc cR d ∧
      t.y = center.2 + Real.sin a * localRingRadius cc cR d := by
  simp only [calculateClusterLocalTargets, List.mem_flatten, List.mem_map] at h
  obtain ⟨L, ⟨lc, hlc, hL⟩, hkt⟩ := h
  subst hL
  obtain ⟨ik, hik, heq⟩ := List.mem_map.1 hkt
  obtain ⟨i, k2⟩ := ik
  rw [Prod.mk.injEq] at heq
  obtain ⟨hk2, ht⟩ := heq
  have hgmem : k2 ∈ centralityGroup cc lc.2 :=
    List.mem_iff_getElem?.2 ⟨i, List.mk_mem_enum_iff_getElem?.1 hik⟩
  refine ⟨lc.2, mem_group_mem (hk2 ▸ hgmem),
    (i : ℝ) * (2 * Real.pi / ((centralityGroup cc lc.2).length : ℝ)) +
      rnd lc.1 i * 0.3, ?_, ?_⟩
  · rw [← ht]
    rfl
  · rw [← ht]
    rfl


set_option maxHeartbeats 1000000 in
/-- Claim C4 (amended, provable part): on the local cluster layout
`calculateClusterLocalTargets` — before the repulsion pass, which the
counterexample shows can destroy the property — the centrality rings are
monotone: in a cluster with distinct keys whose radius is at least the
`minClusterRadius` floor of 100 guaranteed by `calculateClusterRadius`,
a node of strictly higher degree is placed no farther from the cluster
center than a node of lower degree (equality inside a tie group). -/
theorem C4_local_rings_monotone
    (cps : List (String × Particle)) (cc : List (String × ℕ))
    (center : ℝ × ℝ) (cR : ℝ) (rnd : ℕ → ℕ → ℝ)
    (hR : 100 ≤ cR) (hnd : (cc.map Prod.fst).Nodup)
    (kA kB : String) (dA dB : ℕ) (tA tB : Target)
    (hA : (kA, dA) ∈ cc) (hB : (kB, dB) ∈ cc) (hdeg : dB < dA)
    (hsA : (kA, tA) ∈ calculateClusterLocalTargets cps cc center cR rnd)
    (hsB : (kB, tB) ∈ calculateClusterLocalTargets cps cc center cR rnd) :
    Real.sqrt ((tA.x - center.1) ^ 2 + (tA.y - center.2) ^ 2) ≤
      Real.sqrt ((tB.x - center.1) ^ 2 + (tB.y - center.2) ^ 2) := by
  obtain ⟨dA2, hA2, aA, hxA, hyA⟩ := localTargets_mem hsA
  obtain ⟨dB2, hB2, aB, hxB, hyB⟩ := localTargets_mem hsB
  have hdAe : dA2 = dA := assoc_nodup_eq hnd hA2 hA
  have hdBe : dB2 = dB := assoc_nodup_eq hnd hB2 hB
  rw [hdAe] at hxA hyA
  rw [hdBe] at hxB hyB
  set minC := jsMin (cc.map (fun kv => (kv.2 : ℝ))) with hminC
  set maxC := jsMax (cc.map (fun kv => (kv.2 : ℝ))) with hmaxC
  have hA1 : minC ≤ (dA : ℝ) := jsMin_le_mem (List.mem_map.2 ⟨(kA, dA), hA, rfl⟩)
  have hA2m : (dA : ℝ) ≤ maxC := mem_le_jsMax (List.mem_map.2 ⟨(kA, dA), hA, rfl⟩)
  have hB1 : minC ≤ (dB : ℝ) := jsMin_le_mem (List.mem_map.2 ⟨(kB, dB), hB, rfl⟩)
  have hB2m : (dB : ℝ) ≤ maxC := mem_le_jsMax (List.mem_map.2 ⟨(kB, dB), hB, rfl⟩)
  have hdr : (dB : ℝ) < (dA : ℝ) := Nat.cast_lt.2 hdeg
  have hrange : 0 < maxC - minC := by linarith
  have hor : orOne (maxC - minC) = maxC - minC := by
    unfold orOne
    rw [if_neg (ne_of_gt hrange)]
  have hnormA : normalizeCentrality (dA : ℝ) minC maxC =
      ((dA : ℝ) - minC) / (maxC - minC) := by
    unfold normalizeCentrality
    rw [hor, if_neg (ne_of_gt hrange)]
  have hnormB : normalizeCentrality (dB : ℝ) minC maxC =
      ((dB : ℝ) - minC) / (maxC - minC) := by
    unfold normalizeCentrality
    rw [hor, if_neg (ne_of_gt hrange)]
  have hnA0 : 0 ≤ ((dA : ℝ) - minC) / (maxC - minC) :=
    div_nonneg (by linarith) (le_of_lt hrange)
  have hnA1 : ((dA : ℝ) - minC) / (maxC - minC) ≤ 1 := by
    rw [div_le_one hrange]
    linarith
  have hnB0 : 0 ≤ ((dB : ℝ) - minC) / (maxC - minC) :=
    div_nonneg (by linarith) (le_of_lt hrange)
  have hnB1 : ((dB : ℝ) - minC) / (maxC - minC) ≤ 1 := by
    rw [div_le_one hrange]
    linarith
  have hmono : ((dB : ℝ) - minC) / (maxC - minC) ≤ ((dA : ℝ) - minC) / (maxC - minC) := by
    rw [div_le_div_iff₀ hrange hrange]
    nlinarith
  have hpad : clusterBoundaryPadding = (80 : ℝ) := rfl
  have hminL : (20 : ℝ) ≤ min 30 (cR * 0.2) := le_min (by norm_num) (by linarith)
  have hD : 0 ≤ cR - clusterBoundaryPadding - min 30 (cR * 0.2) := by
    have h1 : min (30 : ℝ) (cR * 0.2) ≤ cR * 0.2 := min_le_right _ _
    rw [hpad]
    linarith
  have hrAval : localRingRadius cc cR dA =
      min 30 (cR * 0.2) + (cR - clusterBoundaryPadding - min 30 (cR * 0.2)) *
        (1 - ((dA : ℝ) - minC) / (maxC - minC)) := by
    unfold localRingRadius
    rw [← hminC, ← hmaxC, hnormA]
  have hrBval : localRingRadius cc cR dB =
      min 30 (cR * 0.2) + (cR - clusterBoundaryPadding - min 30 (cR * 0.2)) *
        (1 - ((dB : ℝ) - minC) / (maxC - minC)) := by
    unfold localRingRadius
    rw [← hminC, ← hmaxC, hnormB]
  have hrA0 : 0 ≤ localRingRadius cc cR dA := by
    rw [hrAval]
    nlinarith [mul_nonneg hD (by linarith : (0 : ℝ) ≤ 1 - ((dA : ℝ) - minC) / (maxC - minC))]
  have hrB0 : 0 ≤ localRingRadius cc cR dB := by
    rw [hrBval]
    nlinarith [mul_nonneg hD (by linarith : (0 : ℝ) ≤ 1 - ((dB : ℝ) - minC) / (maxC - minC))]
  have hdistA : Real.sqrt ((tA.x - center.1) ^ 2 + (tA.y - center.2) ^ 2) =
      localRingRadius cc cR dA := by
    rw [hxA, hyA]
    rw [show (center.1 + Real.cos aA * localRingRadius cc cR dA - center.1) ^ 2 +
        (center.2 + Real.sin aA * localRingRadius cc cR dA - center.2) ^ 2 =
        localRingRadius cc cR dA ^ 2 by
      linear_combination (localRingRadius cc cR dA) ^ 2 * Real.sin_sq_add_cos_sq aA]
    exact Real.sqrt_sq hrA0
  have hdistB : Real.sqrt ((tB.x - center.1) ^ 2 + (tB.y - center.2) ^ 2) =
      localRingRadius cc cR dB := by
    rw [hxB, hyB]
    rw [show (center.1 + Real.cos aB * localRingRadius cc cR dB - center.1) ^ 2 +
        (center.2 + Real.sin aB * localRingRadius cc cR dB - center.2) ^ 2 =
        localRingRadius cc cR dB ^ 2 by
      linear_combination (localRingRadius cc cR dB) ^ 2 * Real.sin_sq_add_cos_sq aB]
    exact Real.sqrt_sq hrB0
  rw [hdistA, hdistB, hrAval, hrBval]
  nlinarith [mul_nonneg hD (sub_nonneg.2 hmono)]


/-- A two-node cluster centrality map: hub `a` of degree 2, leaf `b` of
degree 1. -/
def w4cc : List (String × ℕ) := [("a", 2), ("b", 1)]

theorem w4_local_out :
    calculateClusterLocalTargets [] w4cc ((0 : ℝ), (0 : ℝ)) 200 (fun i j => 0) =
      [("a", cT 30 0 30), ("b", cT 120 0 120)] := by
  have hlev : centralityLevels w4cc = [2, 1] := by decide
  have hg2 : centralityGroup w4cc 2 = ["a"] := by decide
  have hg1 : centralityGroup w4cc 1 = ["b"] := by decide
  have hminC : jsMin (w4cc.map (fun kv => (kv.2 : ℝ))) = 1 := by
    norm_num [w4cc, jsMin, min_def]
  have hmaxC : jsMax (w4cc.map (fun kv => (kv.2 : ℝ))) = 2 := by
    norm_num [w4cc, jsMax, max_def]
  unfold calculateClusterLocalTargets
  norm_num [hlev, hg2, hg1, List.enum, List.enumFrom, normalizeCentrality,
    orOne, clusterBoundaryPadding, min_def, max_def, Real.cos_zero,
    Real.sin_zero, cT, hminC, hmaxC]

/-- Witness for `C4_local_rings_monotone` at a concrete cluster: hub `a`
(degree 2) sits 30px from the cluster center, leaf `b` (degree 1) sits
120px away. -/
theorem C4_local_rings_monotone_witness :
    Real.sqrt (((cT 30 0 30).x - ((0 : ℝ), (0 : ℝ)).1) ^ 2 +
        ((cT 30 0 30).y - ((0 : ℝ), (0 : ℝ)).2) ^ 2) ≤
      Real.sqrt (((cT 120 0 120).x - ((0 : ℝ), (0 : ℝ)).1) ^ 2 +
        ((cT 120 0 120).y - ((0 : ℝ), (0 : ℝ)).2) ^ 2) := by
  refine C4_local_rings_monotone [] w4cc ((0 : ℝ), (0 : ℝ)) 200 (fun i j => 0)
    (by norm_num) (by decide) "a" "b" 2 1 (cT 30 0 30) (cT 120 0 120)
    (by decide) (by decide) (by decide) ?_ ?_
  · rw [w4_local_out]
    simp
  · rw [w4_local_out]
    simp


/-- A single node of radius 40 for the grid-sort bound check. -/
def c3sortP : List (String × Particle) :=
  [("n", { blankParticle with radius := 40 })]

/-- Claim C3 (counterexample): neither pass keeps x within
`[radius, width - radius]`.  The grid sort starts every first cluster at
`x = leftMargin = 30` with no x clamp, so a node of radius 40 lands at
`x = 30 < 40` even on a roomy 800×600 canvas; the shuffle pass
(`startShuffling` never calls `enforceCanvasBounds`) drives `A` of `c4P`
to `x = 875` on a 240-wide canvas, far beyond `width - radius = 235`. -/
theorem C3_cex_x_unbounded :
    (∃ e ∈ calculateGridPositions c3sortP ⟨800, 600⟩,
      e.1 = "n" ∧ e.2.1 < radiusOfD c3sortP "n") ∧
    (∃ t : Target,
      List.lookup "A" (startShufflingTargets ⟨240, 900⟩ c4P
        (fun i j => 0) (fun c i j => 0) (fun it i j => 0)) = some t ∧
      (240 : ℝ) - radiusOfD c4P "A" < t.x) := by
  constructor
  · obtain ⟨y, hy⟩ : ∃ y, calculateGridPositions c3sortP ⟨800, 600⟩ =
        [("n", (leftMargin + ((0 : ℕ) : ℝ) * nodeSpacing, y))] := ⟨_, rfl⟩
    refine ⟨("n", (leftMargin + ((0 : ℕ) : ℝ) * nodeSpacing, y)), ?_, rfl, ?_⟩
    · rw [hy]
      exact List.mem_singleton.2 rfl
    · have hr : radiusOfD c3sortP "n" = 40 := rfl
      rw [hr]
      norm_num [leftMargin]
  · refine ⟨cT 875 450 110, ?_, ?_⟩
    · rw [c4_final]
      rfl
    · have hr : radiusOfD c4P "A" = 5 := rfl
      rw [hr]
      norm_num [cT]

/-- Witness for `C3_sort_y_bounds` at the single-node graph `c3sortP` on
an 800×600 canvas. -/
theorem C3_sort_y_bounds_witness :
    ∃ e ∈ calculateGridPositions c3sortP ⟨800, 600⟩, e.1 = "n" ∧
      radiusOfD c3sortP "n" ≤ e.2.2 ∧
      e.2.2 ≤ (⟨800, 600⟩ : Canvas).height - radiusOfD c3sortP "n" :=
  C3_sort_y_bounds c3sortP ⟨800, 600⟩ "n" (by decide)
    (by
      show (2 : ℝ) * radiusOfD c3sortP "n" ≤ 600
      rw [show radiusOfD c3sortP "n" = 40 from rfl]
      norm_num)

end Particles
